import Mathlib

/-!
Verification of the MultiplicationShifts strength-reduction pass
(src/MultiplicationShifts/MultiplicationShifts.cpp).

The pass walks every basic block of a function; for each instruction that
is a binary operator with opcode Mul whose second operand is a ConstantInt
whose value is a power of two, it builds a Shl of the first operand by the
exact log2 of the constant (the shift amount is always built as a 32-bit
constant), inserts it right before the multiply, redirects all uses of the
multiply to the new shift, erases the multiply and records that the
function was modified.

We embed the minimal IR the pass touches: values are identified by natural
numbers, a constant carries a bit width and an unsigned value (the APInt
bit pattern), an instruction has a result identity, an opcode and an
ordered operand list, a function is an ordered list of basic blocks, each
an ordered list of instructions.
-/

namespace StrengthReduce

/-- A constant integer: a bit width together with the unsigned value of its
bit pattern (the APInt payload of a ConstantInt). -/
structure ConstantInt where
  width : Nat
  value : Nat
deriving Repr, DecidableEq

/-- Instruction opcodes: multiply, shift-left, and an open set of other
opcodes treated opaquely. -/
inductive Opcode where
  | mul : Opcode
  | shl : Opcode
  | other : Nat → Opcode
deriving Repr, DecidableEq

/-- An operand is either a reference to a value identity (the result of an
instruction or a function argument) or an immediate constant. -/
inductive Operand where
  | ref : Nat → Operand
  | const : ConstantInt → Operand
deriving Repr, DecidableEq

/-- An instruction: its result value identity, its opcode and its ordered
operand list. -/
structure Instr where
  result : Nat
  opcode : Opcode
  operands : List Operand
deriving Repr, DecidableEq

/-- A basic block is an ordered list of instructions. -/
abbrev Block := List Instr

/-- A function body: an ordered list of basic blocks. -/
structure Func where
  blocks : List Block
deriving Repr, DecidableEq

/-- The single error of the transformation: a multiply instruction with
fewer than two operands (getOperand(1) out of range). -/
inductive RError where
  | malformedOperand : RError
deriving Repr, DecidableEq

/-- Fuel-driven base-2 logarithm (the fuel argument only makes the
recursion structural; with fuel at least n it computes Nat.log2 n). -/
def log2Aux : Nat → Nat → Nat
  | 0, _ => 0
  | fuel + 1, n => if n < 2 then 0 else log2Aux fuel (n / 2) + 1

/-- APInt.exactLogBase2 on a power of two: the exact base-2 logarithm. -/
def exactLogBase2 (v : Nat) : Nat :=
  log2Aux v v

/-- APInt.isPowerOf2: the unsigned value has exactly one bit set,
equivalently it is nonzero and equal to two raised to its log2. -/
def isPowerOf2 (v : Nat) : Bool :=
  v != 0 && v == 2 ^ exactLogBase2 v

/-- replaceAllUsesWith on a single operand: a reference to value r becomes
a reference to value f; anything else is untouched. -/
def replaceUseO (r f : Nat) : Operand → Operand
  | .ref v => if v = r then .ref f else .ref v
  | .const c => .const c

/-- replaceAllUsesWith on one instruction: every operand referencing r now
references f. The result identity and opcode are untouched. -/
def replaceUseI (r f : Nat) (i : Instr) : Instr :=
  ⟨i.result, i.opcode, i.operands.map (replaceUseO r f)⟩

/-- replaceAllUsesWith on a whole block. -/
def replaceUseB (r f : Nat) (b : Block) : Block :=
  b.map (replaceUseI r f)

/-- One classification step of the pass on a single instruction, exactly as
the source performs it: dyn_cast to a binary operator with opcode Mul,
fetch operand 1 (error if absent), dyn_cast it to ConstantInt, test
isPowerOf2; on success return operand 0 (error if absent) together with
the exact log2 of the constant. `none` means the instruction is left
alone. -/
def matchStep (i : Instr) : Except RError (Option (Operand × Nat)) :=
  match i.opcode with
  | .mul =>
    match i.operands.get? 1 with
    | none => .error .malformedOperand
    | some (.const c) =>
      if isPowerOf2 c.value then
        match i.operands.get? 0 with
        | none => .error .malformedOperand
        | some op0 => .ok (some (op0, exactLogBase2 c.value))
      else .ok none
    | some (.ref _) => .ok none
  | _ => .ok none

/-- Sum of the block lengths; termination measure helper. -/
def sumLen (bs : List Block) : Nat :=
  (bs.map List.length).sum

/-- The main loop of MultiplicationShifts::run, as explicit state passing.
`fresh` is the next unused value identity (the source obtains fresh Value
identities from the IRBuilder; we thread a counter), `prev` holds the
blocks already fully traversed, `done` the already-traversed prefix of the
current block in reverse, `rest` the instructions still to visit in the
current block, `bs` the blocks still to visit, and `m` the Modified flag.
On a match a new Shl instruction with operands (operand 0 of the multiply,
a 32-bit constant holding the exact log2) takes the position of the
multiply, and every use of the multiply result anywhere in the function
(already-visited part included, the new shift itself included) is
redirected to the fresh result, exactly like replaceAllUsesWith. -/
def runInstrs (fresh : Nat) (prev : List Block) (done : List Instr)
    (rest : List Instr) (bs : List Block) (m : Bool) :
    Except RError (Func × Bool × Nat) :=
  match rest, bs with
  | [], [] => .ok (⟨prev ++ [done.reverse]⟩, m, fresh)
  | [], b :: bs2 => runInstrs fresh (prev ++ [done.reverse]) [] b bs2 m
  | i :: rest2, bs =>
    match matchStep i with
    | .error e => .error e
    | .ok none => runInstrs fresh prev (i :: done) rest2 bs m
    | .ok (some (op0, k)) =>
      runInstrs (fresh + 1) (prev.map (replaceUseB i.result fresh))
        (replaceUseI i.result fresh ⟨fresh, .shl, [op0, .const ⟨32, k⟩]⟩ ::
          done.map (replaceUseI i.result fresh))
        (rest2.map (replaceUseI i.result fresh))
        (bs.map (replaceUseB i.result fresh)) true
termination_by (sumLen bs + bs.length, rest.length)
decreasing_by
  · simp [Prod.lex_iff, sumLen]
    omega
  · simp [Prod.lex_iff]
  · simp [Prod.lex_iff, sumLen, replaceUseB, List.map_map]
    right
    refine congrArg List.sum ?_
    exact List.map_congr_left fun b _ => by
      simp [Function.comp, replaceUseB]

/-- MultiplicationShifts::run — reduce(function): traverse the blocks in
order, rewrite every matching multiply, and return the rewritten function
together with the Modified flag. `fresh` seeds the fresh value
identities. -/
def reduce (F : Func) (fresh : Nat) : Except RError (Func × Bool) :=
  match F.blocks with
  | [] => .ok (⟨[]⟩, false)
  | b :: bs =>
    match runInstrs fresh [] [] b bs false with
    | .error e => .error e
    | .ok (F2, m, _) => .ok (F2, m)

/-- Pure classification of one instruction: `some (op0, k)` when the
instruction is a multiply whose second operand is a ConstantInt that is a
power of two, where `op0` is the first operand and `k` the exact log2 of
the constant; `none` when the pass leaves the instruction alone. -/
def matchInfo (i : Instr) : Option (Operand × Nat) :=
  match i.opcode with
  | .mul =>
    match i.operands.get? 1 with
    | some (.const c) =>
      if isPowerOf2 c.value then
        (i.operands.get? 0).map (fun op0 => (op0, exactLogBase2 c.value))
      else none
    | _ => none
  | _ => none

/-- The instruction belongs to the rewrite class. -/
def matched (i : Instr) : Bool :=
  (matchInfo i).isSome

/-- The instruction triggers the MalformedOperand failure: a multiply with
fewer than two operands. -/
def malformed (i : Instr) : Bool :=
  i.opcode == Opcode.mul && decide (i.operands.length < 2)

/-- Positional transform of an instruction list, before any use
redirection: each matched multiply becomes the fresh Shl in its place,
everything else stays; `fresh` numbers the new results in order. -/
def transformL (fresh : Nat) : List Instr → List Instr
  | [] => []
  | i :: rest =>
    match matchInfo i with
    | some (op0, k) =>
      ⟨fresh, .shl, [op0, .const ⟨32, k⟩]⟩ :: transformL (fresh + 1) rest
    | none => i :: transformL fresh rest

/-- Number of matched instructions in a list. -/
def countL (l : List Instr) : Nat :=
  (l.filter matched).length

/-- The (removed result, fresh result) pairs of a list, in traversal
order. -/
def pairsL (fresh : Nat) : List Instr → List (Nat × Nat)
  | [] => []
  | i :: rest =>
    if matched i then (i.result, fresh) :: pairsL (fresh + 1) rest
    else pairsL fresh rest

/-- Positional transform over the block list. -/
def transformB (fresh : Nat) : List Block → List Block
  | [] => []
  | b :: bs => transformL fresh b :: transformB (fresh + countL b) bs

/-- Number of matched instructions in a block list. -/
def countB (bs : List Block) : Nat :=
  (bs.map countL).sum

/-- All (removed, fresh) pairs of a block list, in traversal order. -/
def pairsB (fresh : Nat) : List Block → List (Nat × Nat)
  | [] => []
  | b :: bs => pairsL fresh b ++ pairsB (fresh + countL b) bs

/-- Apply a sequence of use redirections to one operand, oldest first. -/
def applyPairsO (ps : List (Nat × Nat)) (o : Operand) : Operand :=
  ps.foldl (fun a p => replaceUseO p.1 p.2 a) o

/-- Apply a sequence of use redirections to one instruction. -/
def applyPairsI (ps : List (Nat × Nat)) (i : Instr) : Instr :=
  ps.foldl (fun a p => replaceUseI p.1 p.2 a) i

/-- Apply a sequence of use redirections to a block. -/
def applyPairsB (ps : List (Nat × Nat)) (b : Block) : Block :=
  b.map (applyPairsI ps)

/-- Some instruction of the list is in the rewrite class. -/
def anyMatchL (l : List Instr) : Bool :=
  l.any matched

/-- Some instruction of some block is in the rewrite class. -/
def anyMatchB (bs : List Block) : Bool :=
  bs.any anyMatchL

/-- No instruction of the list is a malformed multiply. -/
def noMalformedL (l : List Instr) : Bool :=
  l.all (fun i => !malformed i)

/-- No instruction of any block is a malformed multiply. -/
def noMalformedB (bs : List Block) : Bool :=
  bs.all noMalformedL

/-- The state the traversal is provably equal to: apply the positional
transform to the unvisited part, then redirect the whole function through
the accumulated (removed, fresh) pairs of the unvisited part. -/
def specState (fresh : Nat) (prev : List Block) (done : List Instr)
    (rest : List Instr) (bs : List Block) (m : Bool) : Func × Bool × Nat :=
  let ps := pairsL fresh rest ++ pairsB (fresh + countL rest) bs
  (⟨prev.map (applyPairsB ps) ++
      ((done.reverse ++ transformL fresh rest).map (applyPairsI ps) ::
        (transformB (fresh + countL rest) bs).map (applyPairsB ps))⟩,
   m || (anyMatchL rest || anyMatchB bs), fresh + countL rest + countB bs)

/-- The function reduce provably returns on well-formed input: the
positional transform of every block, with every use of a removed multiply
result redirected to the corresponding fresh shift result. -/
def specFunc (F : Func) (fresh : Nat) : Func :=
  ⟨(transformB fresh F.blocks).map (applyPairsB (pairsB fresh F.blocks))⟩

/-- The flattened instruction stream of a function. -/
def instrsOf (F : Func) : List Instr :=
  F.blocks.flatten

/-- Position-based access: instruction q of block p. -/
def lookup (F : Func) (p q : Nat) : Option Instr :=
  (F.blocks.get? p).bind fun b => b.get? q

/-- The results defined by a list of instructions. -/
def resultsOf (l : List Instr) : List Nat :=
  l.map fun i => i.result

/-- The operand stays below the id bound n (constants always do). -/
def refBelow (n : Nat) : Operand → Bool
  | .ref v => decide (v < n)
  | .const _ => true

/-- Every value identity of the function (results and references) is below
n; used to say a fresh-id seed is really fresh. -/
def idsBelow (F : Func) (n : Nat) : Bool :=
  (instrsOf F).all fun i =>
    decide (i.result < n) && i.operands.all (refBelow n)

/-- Results of the function are pairwise distinct (SSA well-formedness). -/
abbrev uniqueResults (F : Func) : Prop :=
  (resultsOf (instrsOf F)).Nodup

/-- Results of the multiply instructions the pass removes. -/
def removedResults (F : Func) : List Nat :=
  ((instrsOf F).filter matched).map fun i => i.result

/-- Fixed-width evaluation of one operand: a reference reads the
environment, a constant contributes its value modulo the function width. -/
def evalOperand (w : Nat) (env : Nat → Nat) : Operand → Nat
  | .ref v => env v
  | .const c => c.value % 2 ^ w

/-- Fixed-width opcode semantics: multiplication and left shift are
arithmetic modulo 2 ^ w on the first two operand values; every other
opcode has an uninterpreted semantics supplied by the host. -/
def opSem (w : Nat) (other : Opcode → List Nat → Nat) :
    Opcode → List Nat → Nat
  | .mul, a :: b :: _ => a * b % 2 ^ w
  | .shl, a :: b :: _ => (a <<< b) % 2 ^ w
  | op, vs => other op vs

/-- Environment update at one value identity. -/
def update (env : Nat → Nat) (r x : Nat) : Nat → Nat :=
  fun v => if v = r then x else env v

/-- Straight-line evaluation of an instruction list. -/
def evalList (w : Nat) (other : Opcode → List Nat → Nat) :
    (Nat → Nat) → List Instr → (Nat → Nat)
  | env, [] => env
  | env, i :: rest =>
    evalList w other
      (update env i.result
        (opSem w other i.opcode (i.operands.map (evalOperand w env)))) rest

/-- Straight-line evaluation of a function body. -/
def evalFunc (w : Nat) (other : Opcode → List Nat → Nat)
    (env : Nat → Nat) (F : Func) : Nat → Nat :=
  evalList w other env (instrsOf F)

/-- Definitions come before uses: every reference of every instruction is
either already defined or never defined in the function (an argument). -/
def dbuAux (defined allRes : List Nat) : List Instr → Bool
  | [] => true
  | i :: rest =>
    (i.operands.all fun o =>
      match o with
      | .ref v => defined.contains v || !(allRes.contains v)
      | .const _ => true) &&
    dbuAux (i.result :: defined) allRes rest

/-- The function is in definition-before-use form. -/
def defsBeforeUses (F : Func) : Bool :=
  dbuAux [] (resultsOf (instrsOf F)) (instrsOf F)

/-- Every constant operand fits in the function width w. -/
def constsFit (w : Nat) (F : Func) : Bool :=
  (instrsOf F).all fun i =>
    i.operands.all fun o =>
      match o with
      | .const c => decide (c.value < 2 ^ w)
      | .ref _ => true

/-- Example: mul by 4 followed by a use of its result. -/
def exMul4 : Func :=
  ⟨[[⟨1, .mul, [.ref 0, .const ⟨32, 4⟩]⟩,
     ⟨2, .other 0, [.ref 1, .const ⟨32, 1⟩]⟩]]⟩

/-- Rewritten form of exMul4 with fresh seed 10. -/
def exMul4out : Func :=
  ⟨[[⟨10, .shl, [.ref 0, .const ⟨32, 2⟩]⟩,
     ⟨2, .other 0, [.ref 10, .const ⟨32, 1⟩]⟩]]⟩

/-- Example: a matching multiply in one block, a user in a later block. -/
def exTwoBlocks : Func :=
  ⟨[[⟨1, .mul, [.ref 0, .const ⟨16, 2⟩]⟩], [⟨3, .other 9, [.ref 1]⟩]]⟩

/-- Rewritten form of exTwoBlocks with fresh seed 4. -/
def exTwoBlocksOut : Func :=
  ⟨[[⟨4, .shl, [.ref 0, .const ⟨32, 1⟩]⟩], [⟨3, .other 9, [.ref 4]⟩]]⟩

/-- Example: multiply by the boundary constant 1. -/
def exMulOne : Func :=
  ⟨[[⟨1, .mul, [.ref 0, .const ⟨8, 1⟩]⟩]]⟩

/-- Rewritten form of exMulOne with fresh seed 5. -/
def exMulOneOut : Func :=
  ⟨[[⟨5, .shl, [.ref 0, .const ⟨32, 0⟩]⟩]]⟩

/-- Example: multiply whose constant is 64 bits wide. -/
def exMul64 : Func :=
  ⟨[[⟨1, .mul, [.ref 0, .const ⟨64, 8⟩]⟩]]⟩

/-- Rewritten form of exMul64 with fresh seed 9. -/
def exMul64Out : Func :=
  ⟨[[⟨9, .shl, [.ref 0, .const ⟨32, 3⟩]⟩]]⟩

/-- Example: a multiply instruction with a single operand. -/
def exMalformed : Func :=
  ⟨[[⟨1, .mul, [.ref 0]⟩]]⟩

theorem log2_zero : Nat.log2 0 = 0 := by
  rw [Nat.log2]
  norm_num

theorem log2_one : Nat.log2 1 = 0 := by
  rw [Nat.log2]
  norm_num

theorem log2Aux_eq (fuel n : Nat) (h : n ≤ fuel) :
    log2Aux fuel n = Nat.log2 n := by
  induction fuel generalizing n with
  | zero =>
    have hn : n = 0 := by omega
    subst hn
    rw [log2_zero]
    rfl
  | succ fuel ih =>
    by_cases h2 : n < 2
    · rw [log2Aux, if_pos h2]
      interval_cases n
      · rw [log2_zero]
      · rw [log2_one]
    · rw [log2Aux, if_neg h2, ih (n / 2) (by omega)]
      conv_rhs => rw [Nat.log2]
      rw [if_pos (by omega)]

theorem exactLogBase2_eq_log2 (v : Nat) : exactLogBase2 v = Nat.log2 v :=
  log2Aux_eq v v le_rfl

theorem matchStep_of_not_malformed (i : Instr) (h : malformed i = false) :
    matchStep i = .ok (matchInfo i) := by
  rcases i with ⟨r, op, ops⟩
  cases op with
  | mul =>
    match ops with
    | [] => simp [malformed] at h
    | [a] => simp [malformed] at h
    | a :: b :: t =>
      cases b with
      | ref v => simp [matchStep, matchInfo]
      | const c =>
        by_cases hp : isPowerOf2 c.value = true
        · simp [matchStep, matchInfo, hp]
        · simp [matchStep, matchInfo, hp]
  | shl => simp [matchStep, matchInfo]
  | other n => simp [matchStep, matchInfo]

theorem matchStep_of_malformed (i : Instr) (h : malformed i = true) :
    matchStep i = .error .malformedOperand := by
  rcases i with ⟨r, op, ops⟩
  cases op with
  | mul =>
    match ops with
    | [] => simp [matchStep]
    | [a] => simp [matchStep]
    | a :: b :: t =>
      simp [malformed] at h
      omega
  | shl => simp [malformed] at h
  | other n => simp [malformed] at h

@[simp] theorem replaceUseI_result (r f : Nat) (i : Instr) :
    (replaceUseI r f i).result = i.result := rfl

@[simp] theorem replaceUseI_opcode (r f : Nat) (i : Instr) :
    (replaceUseI r f i).opcode = i.opcode := rfl

@[simp] theorem replaceUseI_length (r f : Nat) (i : Instr) :
    (replaceUseI r f i).operands.length = i.operands.length := by
  simp [replaceUseI]

theorem matchInfo_replaceUseI (r f : Nat) (i : Instr) :
    matchInfo (replaceUseI r f i) =
      (matchInfo i).map (fun p => (replaceUseO r f p.1, p.2)) := by
  rcases i with ⟨res, op, ops⟩
  cases op with
  | mul =>
    match ops with
    | [] => simp [matchInfo, replaceUseI]
    | [a] => simp [matchInfo, replaceUseI]
    | a :: b :: t =>
      cases b with
      | ref v =>
        by_cases hv : v = r <;> simp [matchInfo, replaceUseI, replaceUseO, hv]
      | const c =>
        by_cases hp : isPowerOf2 c.value = true <;>
          simp [matchInfo, replaceUseI, replaceUseO, hp]
  | shl => simp [matchInfo, replaceUseI]
  | other n => simp [matchInfo, replaceUseI]

@[simp] theorem matched_replaceUseI (r f : Nat) (i : Instr) :
    matched (replaceUseI r f i) = matched i := by
  simp [matched, matchInfo_replaceUseI]

@[simp] theorem malformed_replaceUseI (r f : Nat) (i : Instr) :
    malformed (replaceUseI r f i) = malformed i := by
  simp [malformed]

@[simp] theorem applyPairsO_nil (o : Operand) : applyPairsO [] o = o := rfl

@[simp] theorem applyPairsI_nil (i : Instr) : applyPairsI [] i = i := rfl

theorem applyPairsO_cons (r f : Nat) (ps : List (Nat × Nat)) (o : Operand) :
    applyPairsO ((r, f) :: ps) o = applyPairsO ps (replaceUseO r f o) := rfl

theorem applyPairsI_cons (r f : Nat) (ps : List (Nat × Nat)) (i : Instr) :
    applyPairsI ((r, f) :: ps) i = applyPairsI ps (replaceUseI r f i) := rfl

@[simp] theorem applyPairsB_nil (b : Block) : applyPairsB [] b = b := by
  exact List.map_id'' applyPairsI_nil b

theorem applyPairsB_cons (r f : Nat) (ps : List (Nat × Nat)) (b : Block) :
    applyPairsB ((r, f) :: ps) b = applyPairsB ps (replaceUseB r f b) := by
  simp [applyPairsB, replaceUseB, applyPairsI_cons]

@[simp] theorem applyPairsI_result (ps : List (Nat × Nat)) (i : Instr) :
    (applyPairsI ps i).result = i.result := by
  induction ps generalizing i with
  | nil => rfl
  | cons p ps ih => rw [show ((p :: ps) : List (Nat × Nat)) = (p.1, p.2) :: ps by rfl,
      applyPairsI_cons]; simp [ih]

@[simp] theorem applyPairsI_opcode (ps : List (Nat × Nat)) (i : Instr) :
    (applyPairsI ps i).opcode = i.opcode := by
  induction ps generalizing i with
  | nil => rfl
  | cons p ps ih => rw [show ((p :: ps) : List (Nat × Nat)) = (p.1, p.2) :: ps by rfl,
      applyPairsI_cons]; simp [ih]

theorem applyPairsI_operands (ps : List (Nat × Nat)) (i : Instr) :
    (applyPairsI ps i).operands = i.operands.map (applyPairsO ps) := by
  induction ps generalizing i with
  | nil => exact (List.map_id'' applyPairsO_nil i.operands).symm
  | cons p ps ih =>
    rw [show ((p :: ps) : List (Nat × Nat)) = (p.1, p.2) :: ps by rfl,
      applyPairsI_cons, ih]
    simp only [replaceUseI, List.map_map]
    refine List.map_congr_left fun a _ => ?_
    cases p
    rfl

theorem countL_cons (i : Instr) (l : List Instr) :
    countL (i :: l) = (if matched i then 1 else 0) + countL l := by
  by_cases h : matched i
  · simp [countL, h]
    omega
  · simp [countL, h]

@[simp] theorem countL_map_replaceUseI (r f : Nat) (l : List Instr) :
    countL (l.map (replaceUseI r f)) = countL l := by
  induction l with
  | nil => rfl
  | cons i l ih => simp [countL_cons, ih]

@[simp] theorem pairsL_map_replaceUseI (fresh r f : Nat) (l : List Instr) :
    pairsL fresh (l.map (replaceUseI r f)) = pairsL fresh l := by
  induction l generalizing fresh with
  | nil => rfl
  | cons i l ih => by_cases h : matched i <;> simp [pairsL, h, ih]

theorem transformL_map_replaceUseI (fresh r f : Nat) (l : List Instr) :
    transformL fresh (l.map (replaceUseI r f)) =
      (transformL fresh l).map (replaceUseI r f) := by
  induction l generalizing fresh with
  | nil => rfl
  | cons i l ih =>
    cases h : matchInfo i with
    | none => simp [transformL, matchInfo_replaceUseI, h, ih]
    | some p =>
      simp [transformL, matchInfo_replaceUseI, h, ih]
      simp [replaceUseI, replaceUseO]

@[simp] theorem anyMatchL_map_replaceUseI (r f : Nat) (l : List Instr) :
    anyMatchL (l.map (replaceUseI r f)) = anyMatchL l := by
  simp only [anyMatchL, List.any_map]
  exact congrArg l.any (funext (matched_replaceUseI r f))

@[simp] theorem noMalformedL_map_replaceUseI (r f : Nat) (l : List Instr) :
    noMalformedL (l.map (replaceUseI r f)) = noMalformedL l := by
  simp only [noMalformedL, List.all_map]
  refine congrArg l.all (funext fun i => ?_)
  simp [Function.comp]

@[simp] theorem countB_map_replaceUseB (r f : Nat) (bs : List Block) :
    countB (bs.map (replaceUseB r f)) = countB bs := by
  induction bs with
  | nil => rfl
  | cons b bs ih => simp [countB, replaceUseB] at *; omega

@[simp] theorem pairsB_map_replaceUseB (fresh r f : Nat) (bs : List Block) :
    pairsB fresh (bs.map (replaceUseB r f)) = pairsB fresh bs := by
  induction bs generalizing fresh with
  | nil => rfl
  | cons b bs ih => simp [pairsB, replaceUseB, ih]

theorem transformB_map_replaceUseB (fresh r f : Nat) (bs : List Block) :
    transformB fresh (bs.map (replaceUseB r f)) =
      (transformB fresh bs).map (replaceUseB r f) := by
  induction bs generalizing fresh with
  | nil => rfl
  | cons b bs ih =>
    simp [transformB, replaceUseB, ih, transformL_map_replaceUseI]

@[simp] theorem anyMatchB_map_replaceUseB (r f : Nat) (bs : List Block) :
    anyMatchB (bs.map (replaceUseB r f)) = anyMatchB bs := by
  simp only [anyMatchB, List.any_map]
  refine congrArg bs.any (funext fun b => ?_)
  simp [Function.comp, replaceUseB]

@[simp] theorem noMalformedB_map_replaceUseB (r f : Nat) (bs : List Block) :
    noMalformedB (bs.map (replaceUseB r f)) = noMalformedB bs := by
  simp only [noMalformedB, List.all_map]
  refine congrArg bs.all (funext fun b => ?_)
  simp [Function.comp, replaceUseB]

@[simp] theorem map_applyPairsI_nil (l : List Instr) :
    l.map (applyPairsI []) = l :=
  List.map_id'' applyPairsI_nil l

@[simp] theorem map_applyPairsB_nil (bs : List Block) :
    bs.map (applyPairsB []) = bs :=
  List.map_id'' applyPairsB_nil bs

theorem specState_pop (fresh : Nat) (prev : List Block) (done : List Instr)
    (b : Block) (bs2 : List Block) (m : Bool) :
    specState fresh (prev ++ [done.reverse]) [] b bs2 m =
      specState fresh prev done [] (b :: bs2) m := by
  simp [specState, pairsL, pairsB, transformL, transformB, countL, countB,
    anyMatchL, anyMatchB, applyPairsB]
  omega

theorem countL_cons_matched {i : Instr} (h : matched i = true)
    (l : List Instr) : countL (i :: l) = countL l + 1 := by
  simp [countL, List.filter_cons, h]

theorem countL_cons_unmatched {i : Instr} (h : matched i = false)
    (l : List Instr) : countL (i :: l) = countL l := by
  simp [countL, List.filter_cons, h]

theorem specState_skip (fresh : Nat) (prev : List Block) (done : List Instr)
    (i : Instr) (rest2 : List Instr) (bs : List Block) (m : Bool)
    (h : matchInfo i = none) :
    specState fresh prev (i :: done) rest2 bs m =
      specState fresh prev done (i :: rest2) bs m := by
  have hm : matched i = false := by simp [matched, h]
  simp [specState, pairsL, transformL, h, hm, countL_cons_unmatched hm, anyMatchL]

theorem map_applyPairsI_cons (r f : Nat) (ps : List (Nat × Nat))
    (l : List Instr) :
    l.map (applyPairsI ((r, f) :: ps)) =
      (l.map (replaceUseI r f)).map (applyPairsI ps) := by
  rw [List.map_map]
  exact List.map_congr_left fun a _ => applyPairsI_cons r f ps a

theorem map_applyPairsB_cons (r f : Nat) (ps : List (Nat × Nat))
    (bs : List Block) :
    bs.map (applyPairsB ((r, f) :: ps)) =
      (bs.map (replaceUseB r f)).map (applyPairsB ps) := by
  rw [List.map_map]
  exact List.map_congr_left fun a _ => applyPairsB_cons r f ps a

theorem specState_rewrite (fresh : Nat) (prev : List Block)
    (done : List Instr) (i : Instr) (rest2 : List Instr) (bs : List Block)
    (m : Bool) (op0 : Operand) (k : Nat) (h : matchInfo i = some (op0, k)) :
    specState (fresh + 1) (prev.map (replaceUseB i.result fresh))
        (replaceUseI i.result fresh ⟨fresh, .shl, [op0, .const ⟨32, k⟩]⟩ ::
          done.map (replaceUseI i.result fresh))
        (rest2.map (replaceUseI i.result fresh))
        (bs.map (replaceUseB i.result fresh)) true =
      specState fresh prev done (i :: rest2) bs m := by
  have hm : matched i = true := by simp [matched, h]
  have hidx : fresh + countL (i :: rest2) = fresh + 1 + countL rest2 := by
    rw [countL_cons_matched hm]
    omega
  have hp : pairsL fresh (i :: rest2) =
      (i.result, fresh) :: pairsL (fresh + 1) rest2 := by
    simp [pairsL, hm]
  simp only [specState, hp, hidx, List.cons_append,
    pairsL_map_replaceUseI, pairsB_map_replaceUseB, countL_map_replaceUseI,
    countB_map_replaceUseB, transformL_map_replaceUseI,
    transformB_map_replaceUseB, transformL, h,
    map_applyPairsI_cons, map_applyPairsB_cons, applyPairsI_cons,
    applyPairsB_cons, anyMatchL, List.any_cons, hm, Bool.true_or,
    Bool.or_true, Bool.true_and]
  refine Prod.ext ?_ (Prod.ext (by simp) rfl)
  simp [List.reverse_cons, List.map_reverse, List.map_append, List.map_map,
    Function.comp, List.append_assoc]

/-- The traversal, on input free of malformed multiplies, returns exactly
the specState of its arguments. -/
theorem runInstrs_eq (fresh : Nat) (prev : List Block) (done : List Instr)
    (rest : List Instr) (bs : List Block) (m : Bool) :
    noMalformedL rest = true → noMalformedB bs = true →
    runInstrs fresh prev done rest bs m =
      .ok (specState fresh prev done rest bs m) := by
  induction fresh, prev, done, rest, bs, m using runInstrs.induct with
  | case1 fresh prev done m =>
    intro h1 h2
    simp [runInstrs, specState, pairsL, pairsB, transformL, transformB,
      countL, countB, anyMatchL, anyMatchB]
  | case2 fresh prev done m b bs2 ih =>
    intro h1 h2
    have h2' := h2
    rw [noMalformedB, List.all_cons, Bool.and_eq_true] at h2'
    rw [runInstrs]
    rw [ih h2'.1 h2'.2]
    rw [specState_pop]
  | case3 fresh prev done m i rest2 bs e he =>
    intro h1 h2
    have h1' := h1
    rw [noMalformedL, List.all_cons, Bool.and_eq_true, Bool.not_eq_true'] at h1'
    have hms := matchStep_of_not_malformed i h1'.1
    rw [he] at hms
    cases hms
  | case4 fresh prev done m i rest2 bs he ih =>
    intro h1 h2
    have h1' := h1
    rw [noMalformedL, List.all_cons, Bool.and_eq_true, Bool.not_eq_true'] at h1'
    have hms := matchStep_of_not_malformed i h1'.1
    rw [he] at hms
    have hmi : matchInfo i = none := (Except.ok.inj hms).symm
    rw [runInstrs]
    simp only [he]
    rw [ih h1'.2 h2]
    rw [specState_skip _ _ _ _ _ _ _ hmi]
  | case5 fresh prev done m i rest2 bs op0 k he ih =>
    intro h1 h2
    have h1' := h1
    rw [noMalformedL, List.all_cons, Bool.and_eq_true, Bool.not_eq_true'] at h1'
    have hms := matchStep_of_not_malformed i h1'.1
    rw [he] at hms
    have hmi : matchInfo i = some (op0, k) := (Except.ok.inj hms).symm
    rw [runInstrs]
    simp only [he]
    rw [ih (by rw [noMalformedL_map_replaceUseI]; exact h1'.2)
      (by rw [noMalformedB_map_replaceUseB]; exact h2)]
    rw [specState_rewrite _ _ _ _ _ _ m _ _ hmi]

theorem exactLogBase2_pow (k : Nat) : exactLogBase2 (2 ^ k) = k := by
  rw [exactLogBase2_eq_log2, Nat.log2_eq_log_two, Nat.log_pow one_lt_two]

theorem isPowerOf2_iff (v : Nat) : isPowerOf2 v = true ↔ ∃ k, v = 2 ^ k := by
  constructor
  · intro h
    simp only [isPowerOf2, Bool.and_eq_true, bne_iff_ne, beq_iff_eq] at h
    exact ⟨exactLogBase2 v, h.2⟩
  · rintro ⟨k, rfl⟩
    simp only [isPowerOf2, Bool.and_eq_true, bne_iff_ne, beq_iff_eq]
    exact ⟨pow_ne_zero k two_ne_zero, by rw [exactLogBase2_pow]⟩

theorem pow_exactLogBase2 {v : Nat} (h : isPowerOf2 v = true) :
    v = 2 ^ exactLogBase2 v := by
  simp only [isPowerOf2, Bool.and_eq_true, bne_iff_ne, beq_iff_eq] at h
  exact h.2

/-- The traversal errors out as soon as some malformed multiply remains
ahead of it. -/
theorem runInstrs_error (fresh : Nat) (prev : List Block) (done : List Instr)
    (rest : List Instr) (bs : List Block) (m : Bool) :
    noMalformedL rest = false ∨ noMalformedB bs = false →
    runInstrs fresh prev done rest bs m = .error .malformedOperand := by
  induction fresh, prev, done, rest, bs, m using runInstrs.induct with
  | case1 fresh prev done m =>
    intro h
    rcases h with h | h <;> simp [noMalformedL, noMalformedB] at h
  | case2 fresh prev done m b bs2 ih =>
    intro h
    rcases h with h | h
    · simp [noMalformedL] at h
    · rw [noMalformedB, List.all_cons] at h
      rw [runInstrs]
      refine ih ?_
      rcases Bool.and_eq_false_iff.mp h with h | h
      · exact Or.inl h
      · exact Or.inr h
  | case3 fresh prev done m i rest2 bs e he =>
    intro h
    cases e
    rw [runInstrs]
    simp only [he]
  | case4 fresh prev done m i rest2 bs he ih =>
    intro h
    have hmal : malformed i = false := by
      by_contra hc
      rw [matchStep_of_malformed i (by simpa using hc)] at he
      cases he
    rw [runInstrs]
    simp only [he]
    refine ih ?_
    rcases h with h | h
    · rw [noMalformedL, List.all_cons, hmal] at h
      simp only [Bool.not_false, Bool.true_and] at h
      exact Or.inl h
    · exact Or.inr h
  | case5 fresh prev done m i rest2 bs op0 k he ih =>
    intro h
    have hmal : malformed i = false := by
      by_contra hc
      rw [matchStep_of_malformed i (by simpa using hc)] at he
      cases he
    rw [runInstrs]
    simp only [he]
    refine ih ?_
    rcases h with h | h
    · rw [noMalformedL, List.all_cons, hmal] at h
      simp only [Bool.not_false, Bool.true_and] at h
      exact Or.inl (by rw [noMalformedL_map_replaceUseI]; exact h)
    · exact Or.inr (by rw [noMalformedB_map_replaceUseB]; exact h)

/-- reduce on input without malformed multiplies: the rewritten function is
specFunc and the returned boolean is whether any instruction matched. -/
theorem reduce_eq (F : Func) (fresh : Nat)
    (h : noMalformedB F.blocks = true) :
    reduce F fresh = .ok (specFunc F fresh, anyMatchB F.blocks) := by
  rcases F with ⟨blocks⟩
  cases blocks with
  | nil => simp [reduce, specFunc, transformB, pairsB, anyMatchB]
  | cons b bs =>
    rw [noMalformedB, List.all_cons, Bool.and_eq_true] at h
    simp only [reduce]
    rw [runInstrs_eq fresh [] [] b bs false h.1 h.2]
    simp only [specState, specFunc, anyMatchB, List.any_cons, pairsB,
      transformB, countL, pairsL, List.nil_append, List.map_nil,
      List.reverse_nil, List.map_cons, Bool.false_or]
    rfl

theorem noMalformedB_iff (bs : List Block) :
    noMalformedB bs = true ↔ ∀ i ∈ bs.flatten, malformed i = false := by
  simp [noMalformedB, noMalformedL, List.all_eq_true, List.mem_flatten]
  tauto

theorem anyMatchB_iff (bs : List Block) :
    anyMatchB bs = true ↔ ∃ i ∈ bs.flatten, matched i = true := by
  simp [anyMatchB, anyMatchL, List.any_eq_true, List.mem_flatten]
  tauto

theorem countL_append (a b : List Instr) :
    countL (a ++ b) = countL a + countL b := by
  simp [countL, List.filter_append]

theorem countB_cons (b : Block) (bs : List Block) :
    countB (b :: bs) = countL b + countB bs := by
  simp [countB]

theorem pairsL_append (fresh : Nat) (a b : List Instr) :
    pairsL fresh (a ++ b) = pairsL fresh a ++ pairsL (fresh + countL a) b := by
  induction a generalizing fresh with
  | nil => simp [pairsL, countL]
  | cons i a ih =>
    by_cases hm : matched i = true
    · have harith : fresh + 1 + countL a = fresh + (countL a + 1) := by omega
      rw [List.cons_append, pairsL, if_pos hm, pairsL, if_pos hm, ih,
        countL_cons_matched hm]
      rw [← harith, List.cons_append]
    · have hm' : matched i = false := by simpa using hm
      rw [List.cons_append, pairsL, if_neg (by simp [hm']), pairsL,
        if_neg (by simp [hm']), ih, countL_cons_unmatched hm']

theorem transformL_append (fresh : Nat) (a b : List Instr) :
    transformL fresh (a ++ b) =
      transformL fresh a ++ transformL (fresh + countL a) b := by
  induction a generalizing fresh with
  | nil => simp [transformL, countL]
  | cons i a ih =>
    cases hm : matchInfo i with
    | some p =>
      have hmt : matched i = true := by simp [matched, hm]
      have harith : fresh + 1 + countL a = fresh + (countL a + 1) := by omega
      simp only [List.cons_append, transformL, hm, List.append_eq, ih,
        countL_cons_matched hmt, harith]
    | none =>
      have hmf : matched i = false := by simp [matched, hm]
      simp only [List.cons_append, transformL, hm, List.append_eq, ih,
        countL_cons_unmatched hmf]

theorem countB_eq_flatten (bs : List Block) : countB bs = countL bs.flatten := by
  induction bs with
  | nil => simp [countB, countL]
  | cons b bs ih => rw [countB_cons, ih, List.flatten_cons, countL_append]

theorem pairsB_eq_flatten (fresh : Nat) (bs : List Block) :
    pairsB fresh bs = pairsL fresh bs.flatten := by
  induction bs generalizing fresh with
  | nil => simp [pairsB, pairsL]
  | cons b bs ih => rw [pairsB, List.flatten_cons, pairsL_append, ih]

theorem transformB_flatten (fresh : Nat) (bs : List Block) :
    (transformB fresh bs).flatten = transformL fresh bs.flatten := by
  induction bs generalizing fresh with
  | nil => simp [transformB, transformL]
  | cons b bs ih => rw [transformB, List.flatten_cons, List.flatten_cons,
      transformL_append, ih]

theorem transformL_length (fresh : Nat) (l : List Instr) :
    (transformL fresh l).length = l.length := by
  induction l generalizing fresh with
  | nil => rfl
  | cons i l ih =>
    cases hm : matchInfo i with
    | some p =>
      obtain ⟨op0, k⟩ := p
      simp only [transformL, hm, List.length_cons, ih]
    | none => simp only [transformL, hm, List.length_cons, ih]

theorem transformB_length (fresh : Nat) (bs : List Block) :
    (transformB fresh bs).length = bs.length := by
  induction bs generalizing fresh with
  | nil => rfl
  | cons b bs ih => rw [transformB]; simp [ih]

theorem transformB_get (fresh : Nat) (bs : List Block) (p : Nat) :
    (transformB fresh bs).get? p =
      (bs.get? p).map (fun b => transformL (fresh + countB (bs.take p)) b) := by
  induction bs generalizing fresh p with
  | nil => simp [transformB]
  | cons b bs ih =>
    cases p with
    | zero => simp [transformB, countB]
    | succ p =>
      rw [transformB]
      simp only [List.get?_cons_succ, List.take_succ_cons]
      rw [ih]
      cases hb : bs.get? p with
      | none => simp
      | some bb =>
        have harith : fresh + countL b + countB (bs.take p) =
            fresh + countB (b :: bs.take p) := by
          rw [countB_cons]
          omega
        simp [harith]

theorem transformL_get_unmatched (fresh : Nat) (l : List Instr) (q : Nat)
    (i : Instr) (hq : l.get? q = some i) (hm : matchInfo i = none) :
    (transformL fresh l).get? q = some i := by
  induction l generalizing fresh q with
  | nil => cases hq
  | cons j l ih =>
    cases q with
    | zero =>
      cases hq
      simp only [transformL, hm, List.get?_cons_zero]
    | succ q =>
      cases hj : matchInfo j with
      | some p =>
        obtain ⟨jop, jk⟩ := p
        simp only [transformL, hj, List.get?_cons_succ]
        exact ih (fresh + 1) q hq
      | none =>
        simp only [transformL, hj, List.get?_cons_succ]
        exact ih fresh q hq

theorem transformL_get_matched (fresh : Nat) (l : List Instr) (q : Nat)
    (i : Instr) (op0 : Operand) (k : Nat) (hq : l.get? q = some i)
    (hm : matchInfo i = some (op0, k)) :
    (transformL fresh l).get? q =
      some ⟨fresh + countL (l.take q), .shl, [op0, .const ⟨32, k⟩]⟩ ∧
    (i.result, fresh + countL (l.take q)) ∈ pairsL fresh l := by
  induction l generalizing fresh q with
  | nil => cases hq
  | cons j l ih =>
    cases q with
    | zero =>
      cases hq
      simp only [transformL, hm, List.get?_cons_zero, List.take_zero, countL]
      refine ⟨by simp, ?_⟩
      rw [pairsL, if_pos (by simp [matched, hm])]
      simp [countL]
    | succ q =>
      cases hj : matchInfo j with
      | some pr =>
        obtain ⟨jop, jk⟩ := pr
        have hjt : matched j = true := by simp [matched, hj]
        have hget := (ih (fresh + 1) q hq).1
        have hmem := (ih (fresh + 1) q hq).2
        have harith : fresh + 1 + countL (l.take q) =
            fresh + (countL (l.take q) + 1) := by omega
        simp only [transformL, hj, List.get?_cons_succ, List.take_succ_cons,
          countL_cons_matched hjt]
        constructor
        · rw [hget, harith]
        · rw [pairsL, if_pos hjt]
          exact List.mem_cons_of_mem _ (harith ▸ hmem)
      | none =>
        have hjf : matched j = false := by simp [matched, hj]
        have hget := (ih fresh q hq).1
        have hmem := (ih fresh q hq).2
        simp only [transformL, hj, List.get?_cons_succ, List.take_succ_cons,
          countL_cons_unmatched hjf]
        refine ⟨hget, ?_⟩
        rw [pairsL, if_neg (by simp [hjf])]
        exact hmem

theorem pairsB_mem_of_block (fresh : Nat) (bs : List Block) (p : Nat)
    (b : Block) (hp : bs.get? p = some b) (pr : Nat × Nat)
    (hmem : pr ∈ pairsL (fresh + countB (bs.take p)) b) :
    pr ∈ pairsB fresh bs := by
  induction bs generalizing fresh p with
  | nil => cases hp
  | cons b0 bs ih =>
    cases p with
    | zero =>
      cases hp
      rw [pairsB]
      refine List.mem_append_left _ ?_
      simpa [countB] using hmem
    | succ p =>
      rw [pairsB]
      refine List.mem_append_right _ ?_
      refine ih (fresh + countL b0) p hp ?_
      have harith : fresh + countB ((b0 :: bs).take (p + 1)) =
          fresh + countL b0 + countB (bs.take p) := by
        rw [List.take_succ_cons, countB_cons]
        omega
      rw [← harith]
      exact hmem

theorem lookup_specFunc_unmatched (F : Func) (fresh p q : Nat) (i : Instr)
    (h : lookup F p q = some i) (hm : matchInfo i = none) :
    lookup (specFunc F fresh) p q =
      some (applyPairsI (pairsB fresh F.blocks) i) := by
  rw [lookup, Option.bind_eq_some] at h
  obtain ⟨b, hb, hq⟩ := h
  rw [lookup, specFunc]
  rw [List.get?_map, transformB_get, hb]
  show (applyPairsB (pairsB fresh F.blocks)
      (transformL (fresh + countB (F.blocks.take p)) b)).get? q = _
  rw [applyPairsB, List.get?_map, transformL_get_unmatched _ _ _ _ hq hm]
  rfl

theorem lookup_specFunc_matched (F : Func) (fresh p q : Nat) (i : Instr)
    (op0 : Operand) (k : Nat) (h : lookup F p q = some i)
    (hm : matchInfo i = some (op0, k)) :
    ∃ f, (i.result, f) ∈ pairsB fresh F.blocks ∧
      lookup (specFunc F fresh) p q =
        some (applyPairsI (pairsB fresh F.blocks)
          ⟨f, .shl, [op0, .const ⟨32, k⟩]⟩) := by
  rw [lookup, Option.bind_eq_some] at h
  obtain ⟨b, hb, hq⟩ := h
  have hget := (transformL_get_matched (fresh + countB (F.blocks.take p))
    b q i op0 k hq hm).1
  have hmem := (transformL_get_matched (fresh + countB (F.blocks.take p))
    b q i op0 k hq hm).2
  refine ⟨fresh + countB (F.blocks.take p) + countL (b.take q),
    pairsB_mem_of_block fresh F.blocks p b hb _ hmem, ?_⟩
  rw [lookup, specFunc]
  rw [List.get?_map, transformB_get, hb]
  show (applyPairsB (pairsB fresh F.blocks)
      (transformL (fresh + countB (F.blocks.take p)) b)).get? q = _
  rw [applyPairsB, List.get?_map, hget]
  rfl

theorem specFunc_blocks_length (F : Func) (fresh : Nat) :
    (specFunc F fresh).blocks.length = F.blocks.length := by
  simp [specFunc, transformB_length]

theorem specFunc_block_length (F : Func) (fresh p : Nat) (b : Block)
    (hp : F.blocks.get? p = some b) :
    ∃ b2, (specFunc F fresh).blocks.get? p = some b2 ∧
      b2.length = b.length := by
  rw [specFunc]
  simp only [List.get?_map, transformB_get, hp, Option.map_some]
  exact ⟨_, rfl, by simp [applyPairsB, transformL_length]⟩

theorem applyPairsO_const (ps : List (Nat × Nat)) (c : ConstantInt) :
    applyPairsO ps (.const c) = .const c := by
  induction ps with
  | nil => rfl
  | cons pr ps ih =>
    rw [show ((pr :: ps) : List (Nat × Nat)) = (pr.1, pr.2) :: ps by rfl,
      applyPairsO_cons]
    simpa [replaceUseO] using ih

theorem applyPairsO_ref_notmem (ps : List (Nat × Nat)) (v : Nat)
    (h : ∀ pr ∈ ps, pr.1 ≠ v) : applyPairsO ps (.ref v) = .ref v := by
  induction ps with
  | nil => rfl
  | cons pr ps ih =>
    rw [show ((pr :: ps) : List (Nat × Nat)) = (pr.1, pr.2) :: ps by rfl,
      applyPairsO_cons]
    rw [replaceUseO, if_neg fun hc => h pr (by simp) (by omega)]
    exact ih fun q hq => h q (List.mem_cons_of_mem _ hq)

theorem applyPairsO_ref_mem (ps : List (Nat × Nat)) (n r f : Nat)
    (hgood : ∀ pr ∈ ps, pr.1 < n ∧ n ≤ pr.2)
    (hnodup : (ps.map Prod.fst).Nodup) (hmem : (r, f) ∈ ps) :
    applyPairsO ps (.ref r) = .ref f := by
  induction ps with
  | nil => cases hmem
  | cons pr ps ih =>
    rw [show ((pr :: ps) : List (Nat × Nat)) = (pr.1, pr.2) :: ps by rfl,
      applyPairsO_cons]
    rcases List.mem_cons.mp hmem with heq | htail
    · have hr : pr.1 = r := by rw [← heq]
      have hf : pr.2 = f := by rw [← heq]
      rw [hr, hf]
      simp only [replaceUseO, if_pos rfl]
      refine applyPairsO_ref_notmem ps f fun q hq => ?_
      have hq1 := (hgood q (List.mem_cons_of_mem _ hq)).1
      have hq2 := (hgood pr (List.mem_cons_self _ _)).2
      omega
    · have hpr1 : pr.1 ∉ ps.map Prod.fst :=
        (List.nodup_cons.mp (by simpa using hnodup)).1
      have hne : pr.1 ≠ r := by
        intro hc
        exact hpr1 (hc ▸ List.mem_map_of_mem Prod.fst htail)
      have hcond : ¬ (r = pr.1) := fun hc => hne hc.symm
      simp only [replaceUseO]
      rw [if_neg hcond]
      exact ih (fun q hq => hgood q (List.mem_cons_of_mem _ hq))
        (List.nodup_cons.mp (by simpa using hnodup)).2 htail

theorem pairsL_fst (fresh : Nat) (l : List Instr) :
    (pairsL fresh l).map Prod.fst = (l.filter matched).map fun i => i.result := by
  induction l generalizing fresh with
  | nil => simp [pairsL]
  | cons i l ih =>
    by_cases hm : matched i = true
    · rw [pairsL, if_pos hm]
      simp [List.filter_cons, hm, ih]
    · have hm' : matched i = false := by simpa using hm
      rw [pairsL, if_neg (by simp [hm'])]
      simp [List.filter_cons, hm', ih]

theorem pairsL_snd_ge (fresh : Nat) (l : List Instr) :
    ∀ pr ∈ pairsL fresh l, fresh ≤ pr.2 := by
  induction l generalizing fresh with
  | nil => intro pr h; cases h
  | cons i l ih =>
    intro pr h
    by_cases hm : matched i = true
    · rw [pairsL, if_pos hm] at h
      rcases List.mem_cons.mp h with rfl | htail
      · simp
      · have := ih (fresh + 1) pr htail
        omega
    · rw [pairsL, if_neg (by simpa using hm)] at h
      exact ih fresh pr h

theorem pairsB_fst (fresh : Nat) (bs : List Block) :
    (pairsB fresh bs).map Prod.fst =
      (bs.flatten.filter matched).map fun i => i.result := by
  rw [pairsB_eq_flatten, pairsL_fst]

theorem removedResults_eq (F : Func) (fresh : Nat) :
    removedResults F = (pairsB fresh F.blocks).map Prod.fst := by
  rw [pairsB_fst, removedResults, instrsOf]

theorem pairsB_good (F : Func) (fresh : Nat) (hids : idsBelow F fresh = true) :
    ∀ pr ∈ pairsB fresh F.blocks, pr.1 < fresh ∧ fresh ≤ pr.2 := by
  intro pr hpr
  constructor
  · have h1 : pr.1 ∈ (pairsB fresh F.blocks).map Prod.fst :=
      List.mem_map_of_mem Prod.fst hpr
    rw [pairsB_fst] at h1
    obtain ⟨i, hi, hres⟩ := List.mem_map.mp h1
    have hiF : i ∈ instrsOf F := List.mem_of_mem_filter hi
    rw [idsBelow, List.all_eq_true] at hids
    have := hids i hiF
    rw [Bool.and_eq_true] at this
    have := of_decide_eq_true this.1
    omega
  · rw [pairsB_eq_flatten] at hpr
    exact pairsL_snd_ge fresh _ pr hpr

theorem pairsB_fst_nodup (F : Func) (fresh : Nat) (hu : uniqueResults F) :
    ((pairsB fresh F.blocks).map Prod.fst).Nodup := by
  rw [pairsB_fst]
  refine List.Nodup.sublist ?_ hu
  rw [instrsOf, resultsOf]
  exact List.Sublist.map _ (List.filter_sublist _)

theorem instrsOf_specFunc (F : Func) (fresh : Nat) :
    instrsOf (specFunc F fresh) =
      (transformL fresh (instrsOf F)).map
        (applyPairsI (pairsB fresh F.blocks)) := by
  rw [instrsOf, specFunc]
  show ((transformB fresh F.blocks).map
      (fun b => b.map (applyPairsI (pairsB fresh F.blocks)))).flatten = _
  rw [← List.map_flatten, transformB_flatten, instrsOf]

theorem mem_transformL_results (fresh : Nat) (l : List Instr) :
    ∀ j ∈ transformL fresh l, j.result ∈ resultsOf l ∨ fresh ≤ j.result := by
  induction l generalizing fresh with
  | nil => intro j h; cases h
  | cons i l ih =>
    intro j h
    cases hm : matchInfo i with
    | some p =>
      obtain ⟨op0, k⟩ := p
      rw [transformL, hm] at h
      rcases List.mem_cons.mp h with rfl | htail
      · right; simp
      · rcases ih (fresh + 1) j htail with hin | hge
        · left; rw [resultsOf] at hin ⊢; simpa using Or.inr (by simpa using hin)
        · right; omega
    | none =>
      rw [transformL, hm] at h
      rcases List.mem_cons.mp h with rfl | htail
      · left; simp [resultsOf]
      · rcases ih fresh j htail with hin | hge
        · left; rw [resultsOf] at hin ⊢; simpa using Or.inr (by simpa using hin)
        · right; exact hge

theorem pairsL_snd_result (fresh : Nat) (l : List Instr) :
    ∀ pr ∈ pairsL fresh l, ∃ j ∈ transformL fresh l, j.result = pr.2 := by
  induction l generalizing fresh with
  | nil => intro pr h; cases h
  | cons i l ih =>
    intro pr h
    cases hm : matchInfo i with
    | some p =>
      obtain ⟨op0, k⟩ := p
      have hmt : matched i = true := by simp [matched, hm]
      rw [pairsL, if_pos hmt] at h
      rw [transformL, hm]
      rcases List.mem_cons.mp h with rfl | htail
      · exact ⟨_, List.mem_cons_self _ _, rfl⟩
      · obtain ⟨j, hj, hjr⟩ := ih (fresh + 1) pr htail
        exact ⟨j, List.mem_cons_of_mem _ hj, hjr⟩
    | none =>
      have hmf : matched i = false := by simp [matched, hm]
      rw [pairsL, if_neg (by simp [hmf])] at h
      rw [transformL, hm]
      obtain ⟨j, hj, hjr⟩ := ih fresh pr h
      exact ⟨j, List.mem_cons_of_mem _ hj, hjr⟩

theorem mem_transformL (fresh : Nat) (l : List Instr) :
    ∀ j ∈ transformL fresh l,
      (j ∈ l ∧ matched j = false) ∨
      ∃ i ∈ l, ∃ op0 k, matchInfo i = some (op0, k) ∧ j.opcode = .shl ∧
        j.operands = [op0, .const ⟨32, k⟩] := by
  induction l generalizing fresh with
  | nil => intro j h; cases h
  | cons i l ih =>
    intro j h
    cases hm : matchInfo i with
    | some p =>
      obtain ⟨op0, k⟩ := p
      rw [transformL, hm] at h
      rcases List.mem_cons.mp h with rfl | htail
      · exact Or.inr ⟨i, List.mem_cons_self _ _, op0, k, hm, rfl, rfl⟩
      · rcases ih (fresh + 1) j htail with ⟨hj, hjm⟩ | ⟨i2, hi2, rest⟩
        · exact Or.inl ⟨List.mem_cons_of_mem _ hj, hjm⟩
        · exact Or.inr ⟨i2, List.mem_cons_of_mem _ hi2, rest⟩
    | none =>
      have hmf : matched i = false := by simp [matched, hm]
      rw [transformL, hm] at h
      rcases List.mem_cons.mp h with rfl | htail
      · exact Or.inl ⟨List.mem_cons_self _ _, hmf⟩
      · rcases ih fresh j htail with ⟨hj, hjm⟩ | ⟨i2, hi2, rest⟩
        · exact Or.inl ⟨List.mem_cons_of_mem _ hj, hjm⟩
        · exact Or.inr ⟨i2, List.mem_cons_of_mem _ hi2, rest⟩

theorem resultsOf_cons (i : Instr) (l : List Instr) :
    resultsOf (i :: l) = i.result :: resultsOf l := rfl

theorem result_not_in_transformL (fresh : Nat) (l : List Instr) (i : Instr)
    (hi : i ∈ l) (hm : matched i = true)
    (hnodup : (resultsOf l).Nodup)
    (hlt : ∀ x ∈ l, x.result < fresh) :
    ∀ j ∈ transformL fresh l, j.result ≠ i.result := by
  induction l generalizing fresh with
  | nil => cases hi
  | cons i0 l ih =>
    intro j hj
    rw [resultsOf_cons] at hnodup
    have hcons := List.nodup_cons.mp hnodup
    have hnodup0 : i0.result ∉ resultsOf l := hcons.1
    have hnodup2 : (resultsOf l).Nodup := hcons.2
    cases h0 : matchInfo i0 with
    | some p =>
      obtain ⟨op0, k⟩ := p
      rw [transformL, h0] at hj
      rcases List.mem_cons.mp hj with heqj | htail
      · rw [heqj]
        show fresh ≠ i.result
        have := hlt i hi
        omega
      · rcases List.mem_cons.mp hi with heqi | hitail
        · intro hc
          rcases mem_transformL_results (fresh + 1) l j htail with hin | hge
          · exact hnodup0 (heqi ▸ hc ▸ hin)
          · have := hlt i hi
            omega
        · exact ih (fresh + 1) hitail hnodup2
            (fun x hx => by
              have := hlt x (List.mem_cons_of_mem _ hx)
              omega) j htail
    | none =>
      have hmf0 : matched i0 = false := by simp [matched, h0]
      rw [transformL, h0] at hj
      rcases List.mem_cons.mp hj with heqj | htail
      · rcases List.mem_cons.mp hi with heqi | hitail
        · rw [heqi] at hm
          rw [hm] at hmf0
          cases hmf0
        · rw [heqj]
          intro hc
          exact hnodup0 (hc ▸ List.mem_map_of_mem (fun x => x.result) hitail)
      · rcases List.mem_cons.mp hi with heqi | hitail
        · intro hc
          rcases mem_transformL_results fresh l j htail with hin | hge
          · exact hnodup0 (heqi ▸ hc ▸ hin)
          · have := hlt i hi
            omega
        · exact ih fresh hitail hnodup2
            (fun x hx => hlt x (List.mem_cons_of_mem _ hx)) j htail

theorem reduce_error_iff (F : Func) (fresh : Nat) :
    reduce F fresh = .error .malformedOperand ↔
      noMalformedB F.blocks = false := by
  constructor
  · intro h
    by_contra hc
    have ht : noMalformedB F.blocks = true := by simpa using hc
    rw [reduce_eq F fresh ht] at h
    cases h
  · intro h
    rcases F with ⟨blocks⟩
    cases blocks with
    | nil => simp [noMalformedB] at h
    | cons b bs =>
      rw [noMalformedB, List.all_cons] at h
      simp only [reduce]
      rw [runInstrs_error fresh [] [] b bs false
        (Bool.and_eq_false_iff.mp h)]

theorem reduce_ok_noMalformed (F : Func) (fresh : Nat)
    (x : Func × Bool) (h : reduce F fresh = .ok x) :
    noMalformedB F.blocks = true := by
  by_contra hc
  have hf : noMalformedB F.blocks = false := by simpa using hc
  rw [(reduce_error_iff F fresh).mpr hf] at h
  cases h

/-- On input free of malformed multiplies, reduce returns the specFunc
rewriting and the anyMatch flag; this names the components. -/
theorem reduce_ok_components (F : Func) (fresh : Nat) (F2 : Func) (m : Bool)
    (h : reduce F fresh = .ok (F2, m)) :
    F2 = specFunc F fresh ∧ m = anyMatchB F.blocks := by
  have hnm := reduce_ok_noMalformed F fresh (F2, m) h
  rw [reduce_eq F fresh hnm] at h
  have := Except.ok.inj h
  exact ⟨(congrArg Prod.fst this).symm, (congrArg Prod.snd this).symm⟩

theorem malformed_iff (i : Instr) :
    malformed i = true ↔ i.opcode = .mul ∧ i.operands.length < 2 := by
  simp [malformed]

theorem lookup_mem (F : Func) (p q : Nat) (i : Instr)
    (h : lookup F p q = some i) : i ∈ instrsOf F := by
  rw [lookup, Option.bind_eq_some] at h
  obtain ⟨b, hb, hq⟩ := h
  rw [instrsOf]
  exact List.mem_flatten.mpr ⟨b, List.get?_mem hb, List.get?_mem hq⟩

/-- C7: reduce fails with MalformedOperand exactly when some multiply
instruction has fewer than two operands; there is no other error: any
error it returns is MalformedOperand, and on well-formed input (every
multiply has at least two operands) it succeeds. -/
theorem reduce_malformed_iff (F : Func) (fresh : Nat) :
    (reduce F fresh = .error .malformedOperand ↔
      ∃ i ∈ instrsOf F, i.opcode = .mul ∧ i.operands.length < 2) ∧
    (∀ e, reduce F fresh = .error e → e = .malformedOperand) := by
  constructor
  · rw [reduce_error_iff]
    constructor
    · intro h
      have : ¬ (noMalformedB F.blocks = true) := by simp [h]
      rw [noMalformedB_iff] at this
      push_neg at this
      obtain ⟨i, hi, hmal⟩ := this
      have : malformed i = true := by simpa using hmal
      exact ⟨i, hi, (malformed_iff i).mp this⟩
    · intro ⟨i, hi, hprop⟩
      by_contra hc
      have ht : noMalformedB F.blocks = true := by simpa using hc
      rw [noMalformedB_iff] at ht
      have := ht i hi
      rw [(malformed_iff i).mpr hprop] at this
      cases this
  · intro e he
    cases e
    rfl

/-- C3: the returned boolean is true exactly when some instruction of the
input is a multiply by a power-of-two constant, that is, when at least one
multiply-to-shift rewrite occurred. -/
theorem reduce_modified_iff (F : Func) (fresh : Nat) (F2 : Func) (m : Bool)
    (h : reduce F fresh = .ok (F2, m)) :
    m = true ↔ ∃ i ∈ instrsOf F, matched i = true := by
  rw [(reduce_ok_components F fresh F2 m h).2, anyMatchB_iff]
  rfl

@[simp] theorem matched_applyPairsI (ps : List (Nat × Nat)) (i : Instr) :
    matched (applyPairsI ps i) = matched i := by
  induction ps generalizing i with
  | nil => rfl
  | cons p ps ih =>
    rw [show ((p :: ps) : List (Nat × Nat)) = (p.1, p.2) :: ps by rfl,
      applyPairsI_cons, ih, matched_replaceUseI]

@[simp] theorem malformed_applyPairsI (ps : List (Nat × Nat)) (i : Instr) :
    malformed (applyPairsI ps i) = malformed i := by
  simp [malformed, applyPairsI_operands]

theorem matchInfo_eq_none_of_not_matched {i : Instr}
    (h : matched i = false) : matchInfo i = none := by
  cases hm : matchInfo i with
  | none => rfl
  | some p =>
    rw [matched, hm] at h
    cases h

theorem matched_of_opcode_not_mul {i : Instr} (h : i.opcode ≠ .mul) :
    matched i = false := by
  rw [matched, matchInfo]
  cases hop : i.opcode with
  | mul => exact absurd hop h
  | shl => rfl
  | other n => rfl

theorem countL_eq_zero {l : List Instr} (h : anyMatchL l = false) :
    countL l = 0 := by
  rw [countL, List.length_eq_zero]
  rw [anyMatchL] at h
  rw [List.filter_eq_nil]
  intro a ha
  have := List.any_eq_false.mp h a ha
  simp [this]

theorem pairsL_eq_nil {l : List Instr} (fresh : Nat)
    (h : anyMatchL l = false) : pairsL fresh l = [] := by
  induction l generalizing fresh with
  | nil => rfl
  | cons i l ih =>
    rw [anyMatchL, List.any_cons, Bool.or_eq_false_iff] at h
    rw [pairsL, if_neg (by simp [h.1])]
    exact ih fresh h.2

theorem transformL_id {l : List Instr} (fresh : Nat)
    (h : anyMatchL l = false) : transformL fresh l = l := by
  induction l generalizing fresh with
  | nil => rfl
  | cons i l ih =>
    rw [anyMatchL, List.any_cons, Bool.or_eq_false_iff] at h
    rw [transformL, matchInfo_eq_none_of_not_matched h.1]
    rw [ih fresh h.2]

theorem pairsB_eq_nil {bs : List Block} (fresh : Nat)
    (h : anyMatchB bs = false) : pairsB fresh bs = [] := by
  induction bs generalizing fresh with
  | nil => rfl
  | cons b bs ih =>
    rw [anyMatchB, List.any_cons, Bool.or_eq_false_iff] at h
    rw [pairsB, pairsL_eq_nil fresh h.1, ih (fresh + countL b) h.2,
      List.nil_append]

theorem transformB_id {bs : List Block} (fresh : Nat)
    (h : anyMatchB bs = false) : transformB fresh bs = bs := by
  induction bs generalizing fresh with
  | nil => rfl
  | cons b bs ih =>
    rw [anyMatchB, List.any_cons, Bool.or_eq_false_iff] at h
    rw [transformB, transformL_id fresh h.1, ih (fresh + countL b) h.2]

theorem specFunc_id_of_no_match (F : Func) (fresh : Nat)
    (h : anyMatchB F.blocks = false) : specFunc F fresh = F := by
  rw [specFunc, pairsB_eq_nil fresh h, transformB_id fresh h,
    map_applyPairsB_nil]

theorem noMalformed_specFunc (F : Func) (fresh : Nat)
    (h : noMalformedB F.blocks = true) :
    noMalformedB (specFunc F fresh).blocks = true := by
  rw [noMalformedB_iff] at h ⊢
  intro i hi
  have hi2 : i ∈ instrsOf (specFunc F fresh) := hi
  rw [instrsOf_specFunc] at hi2
  obtain ⟨j, hj, rfl⟩ := List.mem_map.mp hi2
  rw [malformed_applyPairsI]
  rcases mem_transformL fresh (instrsOf F) j hj with ⟨hjl, _⟩ | ⟨_, _, _, _, _, hops, _⟩
  · exact h j hjl
  · rw [malformed, hops]
    rfl

theorem anyMatch_specFunc (F : Func) (fresh : Nat) :
    anyMatchB (specFunc F fresh).blocks = false := by
  by_contra hc
  have ht : anyMatchB (specFunc F fresh).blocks = true := by simpa using hc
  rw [anyMatchB_iff] at ht
  obtain ⟨i, hi, hm⟩ := ht
  have hi2 : i ∈ instrsOf (specFunc F fresh) := hi
  rw [instrsOf_specFunc] at hi2
  obtain ⟨j, hj, rfl⟩ := List.mem_map.mp hi2
  rw [matched_applyPairsI] at hm
  rcases mem_transformL fresh (instrsOf F) j hj with ⟨_, hjm⟩ | ⟨_, _, _, _, _, hop, _⟩
  · rw [hm] at hjm
    cases hjm
  · rw [matched_of_opcode_not_mul (by rw [hop]; intro hc2; cases hc2)] at hm
    cases hm

/-- C5: reduce is idempotent: a second application to the output of a
first application returns that output unchanged and reports that nothing
was modified. -/
theorem reduce_idempotent (F : Func) (fresh fresh2 : Nat) (F2 : Func)
    (m : Bool) (h : reduce F fresh = .ok (F2, m)) :
    reduce F2 fresh2 = .ok (F2, false) := by
  obtain ⟨hF2, hm⟩ := reduce_ok_components F fresh F2 m h
  have hnm := reduce_ok_noMalformed F fresh (F2, m) h
  subst hF2
  have hnm2 := noMalformed_specFunc F fresh hnm
  have hna := anyMatch_specFunc F fresh
  rw [reduce_eq (specFunc F fresh) fresh2 hnm2, hna,
    specFunc_id_of_no_match (specFunc F fresh) fresh2 hna]

theorem idsBelow_result_lt (F : Func) (n : Nat) (h : idsBelow F n = true) :
    ∀ x ∈ instrsOf F, x.result < n := by
  intro x hx
  rw [idsBelow, List.all_eq_true] at h
  have := h x hx
  rw [Bool.and_eq_true] at this
  exact of_decide_eq_true this.1

theorem matchInfo_some_elim (i : Instr) (op0 : Operand) (k : Nat)
    (h : matchInfo i = some (op0, k)) :
    i.opcode = .mul ∧ i.operands.get? 0 = some op0 ∧
      ∃ c, i.operands.get? 1 = some (.const c) ∧
        isPowerOf2 c.value = true ∧ k = exactLogBase2 c.value := by
  rcases i with ⟨r, op, ops⟩
  cases op with
  | mul =>
    match ops with
    | [] => simp [matchInfo] at h
    | [a] => simp [matchInfo] at h
    | a :: b :: t =>
      cases b with
      | ref v => simp [matchInfo] at h
      | const c =>
        by_cases hp : isPowerOf2 c.value = true
        · simp only [matchInfo, List.get?_cons_succ, List.get?_cons_zero,
            if_pos hp, Option.map_some', Option.some.injEq,
            Prod.mk.injEq] at h
          refine ⟨rfl, ?_, c, rfl, hp, h.2.symm⟩
          simp [h.1]
        · simp [matchInfo, hp] at h
  | shl => simp [matchInfo] at h
  | other n2 => simp [matchInfo] at h

theorem matched_opcode_mul {i : Instr} (h : matched i = true) :
    i.opcode = .mul := by
  rw [matched] at h
  cases hm : matchInfo i with
  | none => rw [hm] at h; cases h
  | some p => exact (matchInfo_some_elim i p.1 p.2 (by rw [hm])).1

theorem matchInfo_of_parts (i : Instr) (op0 : Operand) (c : ConstantInt)
    (hop : i.opcode = .mul) (hop0 : i.operands.get? 0 = some op0)
    (hconst : i.operands.get? 1 = some (.const c))
    (hpow : isPowerOf2 c.value = true) :
    matchInfo i = some (op0, exactLogBase2 c.value) := by
  rcases i with ⟨r, op, ops⟩
  simp only at hop hop0 hconst
  subst hop
  cases ops with
  | nil => simp at hconst
  | cons a t =>
    cases t with
    | nil => simp at hconst
    | cons b t2 =>
      simp only [List.get?_cons_zero, Option.some.injEq] at hop0
      simp only [List.get?_cons_succ, List.get?_cons_zero,
        Option.some.injEq] at hconst
      subst hop0
      subst hconst
      simp [matchInfo, hpow]

theorem applyPairsI_mk (ps : List (Nat × Nat)) (r : Nat) (op : Opcode)
    (ops : List Operand) :
    applyPairsI ps ⟨r, op, ops⟩ = ⟨r, op, ops.map (applyPairsO ps)⟩ := by
  have he : ∀ x : Instr, x = ⟨x.result, x.opcode, x.operands⟩ := fun x => rfl
  rw [he (applyPairsI ps ⟨r, op, ops⟩), applyPairsI_result, applyPairsI_opcode,
    applyPairsI_operands]

theorem applyPairsI_operand_get (ps : List (Nat × Nat)) (i : Instr)
    (o2 : Nat) :
    (applyPairsI ps i).operands.get? o2 =
      (i.operands.get? o2).map (applyPairsO ps) := by
  rw [applyPairsI_operands, List.get?_map]

/-- C1: every multiply whose second operand is a power-of-two ConstantInt
is replaced in place by a new ShiftLeft whose operands are the multiply's
first operand (as redirected by the removals the pass performs) and a
constant holding log2 of the multiply's constant; the multiply's result
disappears from the function and every use of it is redirected to the new
shift's result. -/
theorem reduce_rewrites_matching_multiply
    (F : Func) (fresh : Nat) (F2 : Func) (m : Bool) (p q : Nat) (i : Instr)
    (op0 : Operand) (c : ConstantInt)
    (hred : reduce F fresh = .ok (F2, m))
    (hids : idsBelow F fresh = true)
    (huniq : uniqueResults F)
    (harity : ∀ j ∈ instrsOf F, j.opcode = .mul → j.operands.length = 2)
    (hpos : lookup F p q = some i)
    (hop : i.opcode = .mul)
    (hop0 : i.operands.get? 0 = some op0)
    (hconst : i.operands.get? 1 = some (.const c))
    (hpow : isPowerOf2 c.value = true) :
    ∃ f,
      lookup F2 p q = some ⟨f, .shl,
        [applyPairsO (pairsB fresh F.blocks) op0,
         .const ⟨32, exactLogBase2 c.value⟩]⟩ ∧
      (∀ j ∈ instrsOf F2, j.result ≠ i.result) ∧
      (∀ p2 q2 j o2, lookup F p2 q2 = some j →
        j.operands.get? o2 = some (.ref i.result) →
        ∃ j2, lookup F2 p2 q2 = some j2 ∧
          j2.operands.get? o2 = some (.ref f)) := by
  have hmi : matchInfo i = some (op0, exactLogBase2 c.value) :=
    matchInfo_of_parts i op0 c hop hop0 hconst hpow
  have hmt : matched i = true := by simp [matched, hmi]
  obtain ⟨hF2, hm⟩ := reduce_ok_components F fresh F2 m hred
  subst hF2
  obtain ⟨f, hfmem, hlook⟩ :=
    lookup_specFunc_matched F fresh p q i op0 _ hpos hmi
  have hgood := pairsB_good F fresh hids
  have hnodupf := pairsB_fst_nodup F fresh huniq
  have hresolve : applyPairsO (pairsB fresh F.blocks) (.ref i.result) =
      .ref f :=
    applyPairsO_ref_mem _ fresh i.result f hgood hnodupf hfmem
  refine ⟨f, ?_, ?_, ?_⟩
  · rw [hlook, applyPairsI_mk]
    rw [List.map_cons, List.map_cons, List.map_nil, applyPairsO_const]
  · intro j hj
    rw [instrsOf_specFunc] at hj
    obtain ⟨j0, hj0, rfl⟩ := List.mem_map.mp hj
    rw [applyPairsI_result]
    exact result_not_in_transformL fresh (instrsOf F) i (lookup_mem F p q i hpos)
      hmt huniq (idsBelow_result_lt F fresh hids) j0 hj0
  · intro p2 q2 j o2 hl2 hoo
    by_cases hmj : matched j = true
    · obtain ⟨⟨op02, k2⟩, hmj2⟩ := Option.isSome_iff_exists.mp hmj
      obtain ⟨hjop, hjop0, c2, hjc, hjp, hjk⟩ :=
        matchInfo_some_elim j op02 k2 hmj2
      have hlen2 : j.operands.length = 2 :=
        harity j (lookup_mem F p2 q2 j hl2) hjop
      obtain ⟨f2, hf2mem, hlook2⟩ :=
        lookup_specFunc_matched F fresh p2 q2 j op02 k2 hl2 hmj2
      refine ⟨_, hlook2, ?_⟩
      rw [applyPairsI_mk]
      match ho2 : o2 with
      | 0 =>
        rw [hjop0] at hoo
        have : op02 = .ref i.result := Option.some.inj hoo
        subst this
        simp only [List.map_cons, List.get?_cons_zero, Option.some.injEq]
        exact hresolve
      | 1 =>
        rw [hjc] at hoo
        cases Option.some.inj hoo
      | o3 + 2 =>
        rw [List.get?_eq_none.mpr (by omega)] at hoo
        cases hoo
    · have hmjf : matched j = false := by simpa using hmj
      have hmi2 : matchInfo j = none := matchInfo_eq_none_of_not_matched hmjf
      refine ⟨applyPairsI (pairsB fresh F.blocks) j,
        lookup_specFunc_unmatched F fresh p2 q2 j hl2 hmi2, ?_⟩
      rw [applyPairsI_operand_get, hoo]
      rw [Option.map_some', hresolve]

/-- Shared shape of one rewritten site: the position of the multiply now
holds a new shift of the (redirected) first operand by a 32-bit constant
holding the exact log2 of the multiply's constant. -/
theorem rewriteSiteShape
    (F : Func) (fresh : Nat) (F2 : Func) (m : Bool) (p q : Nat) (i : Instr)
    (c : ConstantInt)
    (hred : reduce F fresh = .ok (F2, m))
    (hpos : lookup F p q = some i)
    (hop : i.opcode = .mul)
    (hconst : i.operands.get? 1 = some (.const c))
    (hpow : isPowerOf2 c.value = true)
    (hlen : 2 ≤ i.operands.length) :
    ∃ f op0, i.operands.get? 0 = some op0 ∧
      lookup F2 p q = some ⟨f, .shl,
        [applyPairsO (pairsB fresh F.blocks) op0,
         .const ⟨32, exactLogBase2 c.value⟩]⟩ := by
  obtain ⟨hF2, hm⟩ := reduce_ok_components F fresh F2 m hred
  subst hF2
  cases h0 : i.operands.get? 0 with
  | none =>
    rw [List.get?_eq_none] at h0
    omega
  | some op0 =>
    have hmi : matchInfo i = some (op0, exactLogBase2 c.value) :=
      matchInfo_of_parts i op0 c hop h0 hconst hpow
    obtain ⟨f, hfmem, hlook⟩ :=
      lookup_specFunc_matched F fresh p q i op0 _ hpos hmi
    refine ⟨f, op0, rfl, ?_⟩
    rw [hlook, applyPairsI_mk]
    rw [List.map_cons, List.map_cons, List.map_nil, applyPairsO_const]

/-- C10: at every rewritten site the shift-amount operand of the new
ShiftLeft is a ConstantInt of width 32 holding log2 of the multiply's
constant, whatever the width of the multiply's constant. -/
theorem reduce_shift_amount_width32
    (F : Func) (fresh : Nat) (F2 : Func) (m : Bool) (p q : Nat) (i : Instr)
    (c : ConstantInt)
    (hred : reduce F fresh = .ok (F2, m))
    (hpos : lookup F p q = some i)
    (hop : i.opcode = .mul)
    (hconst : i.operands.get? 1 = some (.const c))
    (hpow : isPowerOf2 c.value = true)
    (hlen : 2 ≤ i.operands.length) :
    ∃ f op0, i.operands.get? 0 = some op0 ∧
      lookup F2 p q = some ⟨f, .shl,
        [applyPairsO (pairsB fresh F.blocks) op0,
         .const ⟨32, exactLogBase2 c.value⟩]⟩ :=
  rewriteSiteShape F fresh F2 m p q i c hred hpos hop hconst hpow hlen

/-- C8: a multiply whose second operand is the constant 1 is a match, not
a skip: it is rewritten to a shift by the 32-bit constant 0 and the pass
reports a modification. -/
theorem reduce_mul_one_rewritten
    (F : Func) (fresh : Nat) (F2 : Func) (m : Bool) (p q : Nat) (i : Instr)
    (w : Nat)
    (hred : reduce F fresh = .ok (F2, m))
    (hpos : lookup F p q = some i)
    (hop : i.opcode = .mul)
    (hconst : i.operands.get? 1 = some (.const ⟨w, 1⟩))
    (hlen : 2 ≤ i.operands.length) :
    m = true ∧ ∃ f op0, i.operands.get? 0 = some op0 ∧
      lookup F2 p q = some ⟨f, .shl,
        [applyPairsO (pairsB fresh F.blocks) op0, .const ⟨32, 0⟩]⟩ := by
  have hpow : isPowerOf2 (1 : Nat) = true := rfl
  constructor
  · rw [(reduce_ok_components F fresh F2 m hred).2, anyMatchB_iff]
    refine ⟨i, lookup_mem F p q i hpos, ?_⟩
    cases h0 : i.operands.get? 0 with
    | none =>
      rw [List.get?_eq_none] at h0
      omega
    | some op0 =>
      simp [matched, matchInfo_of_parts i op0 ⟨w, 1⟩ hop h0 hconst hpow]
  · obtain ⟨f, op0, h0, hlook⟩ := rewriteSiteShape F fresh F2 m
      p q i ⟨w, 1⟩ hred hpos hop hconst hpow hlen
    refine ⟨f, op0, h0, ?_⟩
    exact hlook

/-- C4 (amended): a non-matching instruction stays at its position with
its result, opcode and operand count unchanged; each of its operands is
unchanged unless it referenced a removed multiply's result, in which case
it now references the corresponding new shift's result. -/
theorem reduce_nonmatching_kept
    (F : Func) (fresh : Nat) (F2 : Func) (m : Bool) (p q : Nat) (i : Instr)
    (hred : reduce F fresh = .ok (F2, m))
    (hids : idsBelow F fresh = true)
    (huniq : uniqueResults F)
    (hpos : lookup F p q = some i)
    (hm : matched i = false) :
    lookup F2 p q = some (applyPairsI (pairsB fresh F.blocks) i) ∧
    (applyPairsI (pairsB fresh F.blocks) i).result = i.result ∧
    (applyPairsI (pairsB fresh F.blocks) i).opcode = i.opcode ∧
    (applyPairsI (pairsB fresh F.blocks) i).operands.length =
      i.operands.length ∧
    (∀ o2 o, i.operands.get? o2 = some o →
      ((∀ r ∈ removedResults F, o ≠ .ref r) →
        (applyPairsI (pairsB fresh F.blocks) i).operands.get? o2 = some o) ∧
      (∀ r, o = .ref r → r ∈ removedResults F →
        ∃ f, (r, f) ∈ pairsB fresh F.blocks ∧
          (applyPairsI (pairsB fresh F.blocks) i).operands.get? o2 =
            some (.ref f))) := by
  obtain ⟨hF2, hmm⟩ := reduce_ok_components F fresh F2 m hred
  subst hF2
  have hgood := pairsB_good F fresh hids
  have hnodupf := pairsB_fst_nodup F fresh huniq
  refine ⟨lookup_specFunc_unmatched F fresh p q i hpos
    (matchInfo_eq_none_of_not_matched hm), applyPairsI_result _ _,
    applyPairsI_opcode _ _, by rw [applyPairsI_operands, List.length_map],
    ?_⟩
  intro o2 o ho
  constructor
  · intro hno
    rw [applyPairsI_operand_get, ho, Option.map_some']
    congr 1
    cases o with
    | const c => exact applyPairsO_const _ c
    | ref u =>
      refine applyPairsO_ref_notmem _ u fun pr hpr hc => ?_
      refine hno u ?_ rfl
      rw [removedResults_eq F fresh]
      exact hc ▸ List.mem_map_of_mem Prod.fst hpr
  · rintro r rfl hr
    rw [removedResults_eq F fresh] at hr
    obtain ⟨pr, hpr, hfst⟩ := List.mem_map.mp hr
    refine ⟨pr.2, ?_, ?_⟩
    · rw [← hfst]
      exact hpr
    · rw [applyPairsI_operand_get, ho, Option.map_some']
      congr 1
      refine applyPairsO_ref_mem _ fresh r pr.2 hgood hnodupf ?_
      rw [← hfst]
      exact hpr

/-- C9 (amended): reduce keeps the number and order of basic blocks, the
length of every block and the total instruction count; each non-matching
instruction stays at its position with its result and opcode, and each
matched site holds exactly the one new shift in place of the one removed
multiply. -/
theorem reduce_frame_order_count
    (F : Func) (fresh : Nat) (F2 : Func) (m : Bool)
    (hred : reduce F fresh = .ok (F2, m)) :
    F2.blocks.length = F.blocks.length ∧
    (∀ p b, F.blocks.get? p = some b →
      ∃ b2, F2.blocks.get? p = some b2 ∧ b2.length = b.length) ∧
    (instrsOf F2).length = (instrsOf F).length ∧
    (∀ p q i, lookup F p q = some i → matched i = false →
      ∃ i2, lookup F2 p q = some i2 ∧ i2.result = i.result ∧
        i2.opcode = i.opcode) ∧
    (∀ p q i, lookup F p q = some i → matched i = true →
      ∃ f op0 k, matchInfo i = some (op0, k) ∧
        lookup F2 p q = some ⟨f, .shl,
          [applyPairsO (pairsB fresh F.blocks) op0, .const ⟨32, k⟩]⟩) := by
  obtain ⟨hF2, hmm⟩ := reduce_ok_components F fresh F2 m hred
  subst hF2
  refine ⟨specFunc_blocks_length F fresh,
    fun p b hp => specFunc_block_length F fresh p b hp, ?_, ?_, ?_⟩
  · rw [instrsOf_specFunc, List.length_map, transformL_length]
  · intro p q i hpos hm
    exact ⟨applyPairsI (pairsB fresh F.blocks) i,
      lookup_specFunc_unmatched F fresh p q i hpos
        (matchInfo_eq_none_of_not_matched hm),
      applyPairsI_result _ _, applyPairsI_opcode _ _⟩
  · intro p q i hpos hm
    obtain ⟨⟨op0, k⟩, hmi⟩ := Option.isSome_iff_exists.mp hm
    obtain ⟨f, hfmem, hlook⟩ :=
      lookup_specFunc_matched F fresh p q i op0 k hpos hmi
    refine ⟨f, op0, k, hmi, ?_⟩
    rw [hlook, applyPairsI_mk]
    rw [List.map_cons, List.map_cons, List.map_nil, applyPairsO_const]

/-- C6: after reduce no reference to a removed multiply's result remains;
every reference in the output either already existed in the input and was
not removed, or points at the result of an instruction of the output (in
particular a new shift). -/
theorem reduce_no_dangling
    (F : Func) (fresh : Nat) (F2 : Func) (m : Bool)
    (hred : reduce F fresh = .ok (F2, m))
    (hids : idsBelow F fresh = true)
    (huniq : uniqueResults F) :
    (∀ r ∈ removedResults F, ∀ j ∈ instrsOf F2, (Operand.ref r) ∉ j.operands) ∧
    (∀ j ∈ instrsOf F2, ∀ v, (Operand.ref v) ∈ j.operands →
      ((∃ j0 ∈ instrsOf F, (Operand.ref v) ∈ j0.operands) ∧
        v ∉ removedResults F) ∨
      ∃ j2 ∈ instrsOf F2, j2.result = v) := by
  obtain ⟨hF2, hmm⟩ := reduce_ok_components F fresh F2 m hred
  subst hF2
  have hgood := pairsB_good F fresh hids
  have hnodupf := pairsB_fst_nodup F fresh huniq
  constructor
  · intro r hr j hj hmem
    have hrfst := hr
    rw [removedResults_eq F fresh] at hrfst
    obtain ⟨prr, hprr, hprfst⟩ := List.mem_map.mp hrfst
    have hrlt : r < fresh := hprfst ▸ (hgood prr hprr).1
    rw [instrsOf_specFunc] at hj
    obtain ⟨j2, hj2, rfl⟩ := List.mem_map.mp hj
    rw [applyPairsI_operands] at hmem
    obtain ⟨o, ho, hso⟩ := List.mem_map.mp hmem
    cases o with
    | const c =>
      rw [applyPairsO_const] at hso
      cases hso
    | ref u =>
      by_cases hu : u ∈ (pairsB fresh F.blocks).map Prod.fst
      · obtain ⟨pr, hpr, hfst⟩ := List.mem_map.mp hu
        rw [applyPairsO_ref_mem _ fresh u pr.2 hgood hnodupf
          (hfst ▸ hpr)] at hso
        have : pr.2 = r := Operand.ref.inj hso
        have := (hgood pr hpr).2
        omega
      · rw [applyPairsO_ref_notmem _ u
          (fun pr hpr hc => hu (hc ▸ List.mem_map_of_mem Prod.fst hpr))] at hso
        have : u = r := Operand.ref.inj hso
        subst this
        exact hu hrfst
  · intro j hj v hv
    rw [instrsOf_specFunc] at hj
    obtain ⟨j2, hj2, rfl⟩ := List.mem_map.mp hj
    rw [applyPairsI_operands] at hv
    obtain ⟨o, ho, hso⟩ := List.mem_map.mp hv
    cases o with
    | const c =>
      rw [applyPairsO_const] at hso
      cases hso
    | ref u =>
      by_cases hu : u ∈ (pairsB fresh F.blocks).map Prod.fst
      · obtain ⟨pr, hpr, hfst⟩ := List.mem_map.mp hu
        rw [applyPairsO_ref_mem _ fresh u pr.2 hgood hnodupf
          (hfst ▸ hpr)] at hso
        have hv2 : pr.2 = v := Operand.ref.inj hso
        right
        have hpr2 := hpr
        rw [pairsB_eq_flatten] at hpr2
        obtain ⟨j3, hj3, hj3r⟩ :=
          pairsL_snd_result fresh (instrsOf F) pr hpr2
        refine ⟨applyPairsI (pairsB fresh F.blocks) j3, ?_, ?_⟩
        · rw [instrsOf_specFunc]
          exact List.mem_map_of_mem _ hj3
        · rw [applyPairsI_result, hj3r, hv2]
      · rw [applyPairsO_ref_notmem _ u
          (fun pr hpr hc => hu (hc ▸ List.mem_map_of_mem Prod.fst hpr))] at hso
        have huv : u = v := Operand.ref.inj hso
        subst huv
        left
        constructor
        · rcases mem_transformL fresh (instrsOf F) j2 hj2 with
            ⟨hj2F, _⟩ | ⟨i0, hi0, op0, k, hmi0, _, hops⟩
          · exact ⟨j2, hj2F, ho⟩
          · refine ⟨i0, hi0, ?_⟩
            rw [hops] at ho
            rcases List.mem_cons.mp ho with heq | hrest
            · have := (matchInfo_some_elim i0 op0 k hmi0).2.1
              rw [← heq] at this
              exact List.get?_mem this
            · simp at hrest
        · intro hc
          rw [removedResults_eq F fresh] at hc
          exact hu hc

theorem update_same (env : Nat → Nat) (r x : Nat) : update env r x r = x := by
  simp [update]

theorem update_ne (env : Nat → Nat) (r x v : Nat) (h : v ≠ r) :
    update env r x v = env v := by
  simp [update, h]

theorem idsBelow_ref_lt (F : Func) (n : Nat) (h : idsBelow F n = true) :
    ∀ i ∈ instrsOf F, ∀ v, (Operand.ref v) ∈ i.operands → v < n := by
  intro i hi v hv
  rw [idsBelow, List.all_eq_true] at h
  have h2 := h i hi
  rw [Bool.and_eq_true] at h2
  have h2 := h2.2
  rw [List.all_eq_true] at h2
  have h3 := h2 (.ref v) hv
  simp only [refBelow] at h3
  exact of_decide_eq_true h3

theorem constsFit_lt (w : Nat) (F : Func) (h : constsFit w F = true) :
    ∀ i ∈ instrsOf F, ∀ c, (Operand.const c) ∈ i.operands →
      c.value < 2 ^ w := by
  intro i hi c hc
  rw [constsFit, List.all_eq_true] at h
  have h2 := h i hi
  rw [List.all_eq_true] at h2
  have h3 := h2 (.const c) hc
  simp only at h3
  exact of_decide_eq_true h3

theorem shl_eq_mul_pow (w k : Nat) (cv : Nat) (hcv : cv = 2 ^ k)
    (hlt : cv < 2 ^ w) (a : Nat) :
    (a <<< (k % 2 ^ w)) % 2 ^ w = a * (cv % 2 ^ w) % 2 ^ w := by
  have hkw : k < w := by
    by_contra hc
    have hwk : w ≤ k := by omega
    have : 2 ^ w ≤ 2 ^ k := Nat.pow_le_pow_right (by omega) hwk
    omega
  have hk2 : k < 2 ^ w := lt_of_lt_of_le hkw (le_of_lt (Nat.lt_two_pow w))
  rw [Nat.mod_eq_of_lt hk2, Nat.mod_eq_of_lt hlt, hcv, Nat.shiftLeft_eq]

/-- Simulation of the original function by the rewritten one: processing
the remaining instructions preserves agreement of the two environments on
surviving values and carries each removed multiply's value on the
corresponding fresh shift result. -/
theorem evalSim (w : Nat) (other : Opcode → List Nat → Nat)
    (allRes : List Nat) (PS : List (Nat × Nat)) (fresh0 : Nat)
    (hgoodPS : ∀ pr ∈ PS, pr.1 < fresh0 ∧ fresh0 ≤ pr.2)
    (hfstPS : (PS.map Prod.fst).Nodup) :
    ∀ (rest : List Instr) (psDone : List (Nat × Nat)) (fresh : Nat)
      (D : List Nat) (e e2 : Nat → Nat),
      PS = psDone ++ pairsL fresh rest →
      fresh0 ≤ fresh →
      (∀ i ∈ rest, i.result ∈ allRes) →
      (∀ i ∈ rest, i.result < fresh0) →
      (∀ i ∈ rest, i.result ∉ D) →
      (resultsOf rest).Nodup →
      (∀ i ∈ rest, ∀ v, (Operand.ref v) ∈ i.operands → v < fresh0) →
      (∀ i ∈ rest, ∀ c, (Operand.const c) ∈ i.operands → c.value < 2 ^ w) →
      dbuAux D allRes rest = true →
      (∀ pr ∈ psDone, pr.2 < fresh) →
      (∀ pr ∈ psDone, pr.1 ∉ resultsOf rest) →
      (∀ v, v < fresh0 → v ∉ PS.map Prod.fst → (v ∈ D ∨ v ∉ allRes) →
        e2 v = e v) →
      (∀ pr ∈ psDone, e2 pr.2 = e pr.1) →
      (∀ v, v < fresh0 → v ∉ PS.map Prod.fst →
        (v ∈ D ∨ v ∈ resultsOf rest ∨ v ∉ allRes) →
        evalList w other e2
          ((transformL fresh rest).map (applyPairsI PS)) v =
          evalList w other e rest v) ∧
      (∀ pr ∈ psDone ++ pairsL fresh rest,
        evalList w other e2
          ((transformL fresh rest).map (applyPairsI PS)) pr.2 =
          evalList w other e rest pr.1) := by
  intro rest
  induction rest with
  | nil =>
    intro psDone fresh D e e2 hPS hlb hres_all hres_lt hres_nD hnodup hrefs
      hfit hdbu hsnd_lt hfst_done hA hB
    constructor
    · intro v hv hfst hD
      simp only [transformL, List.map_nil, evalList]
      refine hA v hv hfst ?_
      rcases hD with h | h | h
      · exact Or.inl h
      · simp [resultsOf] at h
      · exact Or.inr h
    · intro pr hpr
      rw [pairsL, List.append_nil] at hpr
      simp only [transformL, List.map_nil, evalList]
      exact hB pr hpr
  | cons i rest ih =>
    intro psDone fresh D e e2 hPS hlb hres_all hres_lt hres_nD hnodup hrefs
      hfit hdbu hsnd_lt hfst_done hA hB
    rw [dbuAux, Bool.and_eq_true] at hdbu
    obtain ⟨hdbu_i, hdbu_rest⟩ := hdbu
    rw [resultsOf_cons] at hnodup
    have hcons := List.nodup_cons.mp hnodup
    have hrlt : i.result < fresh0 := hres_lt i (List.mem_cons_self _ _)
    have hvals : ∀ o ∈ i.operands,
        evalOperand w e2 (applyPairsO PS o) = evalOperand w e o := by
      intro o ho
      cases o with
      | const c =>
        rw [applyPairsO_const]
        rfl
      | ref u =>
        have hu_lt : u < fresh0 :=
          hrefs i (List.mem_cons_self _ _) u ho
        rw [List.all_eq_true] at hdbu_i
        have hdu0 := hdbu_i (.ref u) ho
        have hdu : u ∈ D ∨ u ∉ allRes := by
          simp only [Bool.or_eq_true, Bool.not_eq_true'] at hdu0
          rcases hdu0 with h | h
          · exact Or.inl (by simpa using h)
          · refine Or.inr fun hc => ?_
            rw [show allRes.contains u = true by simpa using hc] at h
            cases h
        by_cases hufst : u ∈ PS.map Prod.fst
        · obtain ⟨pr, hpr, hprfst⟩ := List.mem_map.mp hufst
          rw [applyPairsO_ref_mem PS fresh0 u pr.2 hgoodPS hfstPS
            (hprfst ▸ hpr)]
          have hpr_done : pr ∈ psDone := by
            rw [hPS] at hpr
            rcases List.mem_append.mp hpr with h | h
            · exact h
            · exfalso
              have hfm : pr.1 ∈ (pairsL fresh (i :: rest)).map Prod.fst :=
                List.mem_map_of_mem _ h
              rw [pairsL_fst] at hfm
              obtain ⟨j, hjf, hjr⟩ := List.mem_map.mp hfm
              have hj_mem : j ∈ i :: rest := List.mem_of_mem_filter hjf
              rcases hdu with hDm | hnR
              · exact hres_nD j hj_mem (by rw [hjr, hprfst]; exact hDm)
              · exact hnR
                  (by rw [← hprfst, ← hjr]; exact hres_all j hj_mem)
          show e2 pr.2 = e u
          rw [hB pr hpr_done, hprfst]
        · rw [applyPairsO_ref_notmem PS u
            (fun pr hpr hc => hufst (hc ▸ List.mem_map_of_mem Prod.fst hpr))]
          exact hA u hu_lt hufst hdu
    have hvals_map :
        (i.operands.map (applyPairsO PS)).map (evalOperand w e2) =
          i.operands.map (evalOperand w e) := by
      rw [List.map_map]
      exact List.map_congr_left fun o ho => hvals o ho
    have hD_next : ∀ j ∈ rest, j.result ∉ i.result :: D := by
      intro j hj hc
      rcases List.mem_cons.mp hc with heq | hm2
      · exact hcons.1 (heq ▸ List.mem_map_of_mem (fun x => x.result) hj)
      · exact hres_nD j (List.mem_cons_of_mem _ hj) hm2
    have hfd_next : ∀ pr ∈ psDone, pr.1 ∉ resultsOf rest := by
      intro pr hpr hc
      exact hfst_done pr hpr
        (by rw [resultsOf_cons]; exact List.mem_cons_of_mem _ hc)
    cases hmi : matchInfo i with
    | none =>
      have hmf : matched i = false := by simp [matched, hmi]
      have hPS2 : PS = psDone ++ pairsL fresh rest := by
        rw [hPS, pairsL, if_neg (by simp [hmf])]
      have hval_eq : opSem w other (applyPairsI PS i).opcode
          ((applyPairsI PS i).operands.map (evalOperand w e2)) =
          opSem w other i.opcode (i.operands.map (evalOperand w e)) := by
        rw [applyPairsI_opcode, applyPairsI_operands, hvals_map]
      have hrstep : ∀ v0,
          evalList w other e2
            ((transformL fresh (i :: rest)).map (applyPairsI PS)) v0 =
          evalList w other
            (update e2 i.result
              (opSem w other i.opcode (i.operands.map (evalOperand w e))))
            ((transformL fresh rest).map (applyPairsI PS)) v0 := by
        intro v0
        simp only [transformL, hmi, List.map_cons, evalList,
          applyPairsI_result, hval_eq]
      have hlstep : ∀ v0, evalList w other e (i :: rest) v0 =
          evalList w other
            (update e i.result
              (opSem w other i.opcode (i.operands.map (evalOperand w e))))
            rest v0 := by
        intro v0
        simp only [evalList]
      obtain ⟨ihA, ihB⟩ := ih psDone fresh (i.result :: D)
        (update e i.result
          (opSem w other i.opcode (i.operands.map (evalOperand w e))))
        (update e2 i.result
          (opSem w other i.opcode (i.operands.map (evalOperand w e))))
        hPS2 hlb
        (fun j hj => hres_all j (List.mem_cons_of_mem _ hj))
        (fun j hj => hres_lt j (List.mem_cons_of_mem _ hj))
        hD_next hcons.2
        (fun j hj => hrefs j (List.mem_cons_of_mem _ hj))
        (fun j hj => hfit j (List.mem_cons_of_mem _ hj))
        hdbu_rest hsnd_lt hfd_next
        (by
          intro v hv hfst hDm
          by_cases hvr : v = i.result
          · subst hvr
            rw [update_same, update_same]
          · rw [update_ne _ _ _ _ hvr, update_ne _ _ _ _ hvr]
            refine hA v hv hfst ?_
            rcases hDm with hDm | hDm
            · rcases List.mem_cons.mp hDm with heq | hm2
              · exact absurd heq hvr
              · exact Or.inl hm2
            · exact Or.inr hDm)
        (by
          intro pr hpr
          have hprPS : pr ∈ PS := by
            rw [hPS]
            exact List.mem_append_left _ hpr
          have h2 : fresh0 ≤ pr.2 := (hgoodPS pr hprPS).2
          rw [update_ne _ _ _ _ (by omega)]
          rw [update_ne _ _ _ _ (fun hc => hfst_done pr hpr
            (by rw [resultsOf_cons, hc]; exact List.mem_cons_self _ _))]
          exact hB pr hpr)
      constructor
      · intro v hv hfst hDm
        rw [hrstep v, hlstep v]
        refine ihA v hv hfst ?_
        rcases hDm with hDm | hDm | hDm
        · exact Or.inl (List.mem_cons_of_mem _ hDm)
        · rw [resultsOf_cons] at hDm
          rcases List.mem_cons.mp hDm with heq | hm2
          · exact Or.inl (heq ▸ List.mem_cons_self _ _)
          · exact Or.inr (Or.inl hm2)
        · exact Or.inr (Or.inr hDm)
      · intro pr hpr
        rw [hrstep pr.2, hlstep pr.1]
        refine ihB pr ?_
        rw [pairsL, if_neg (by simp [hmf])] at hpr
        exact hpr
    | some pk =>
      obtain ⟨op0, k⟩ := pk
      have hmt : matched i = true := by simp [matched, hmi]
      obtain ⟨hopc, hop0, c, hc1, hpow, hkeq⟩ :=
        matchInfo_some_elim i op0 k hmi
      have hcv : c.value = 2 ^ k := by
        rw [hkeq]
        exact pow_exactLogBase2 hpow
      have hclt : c.value < 2 ^ w :=
        hfit i (List.mem_cons_self _ _) c (List.get?_mem hc1)
      have hmem_op0 : op0 ∈ i.operands := List.get?_mem hop0
      have hpr_new : (i.result, fresh) ∈ PS := by
        rw [hPS, pairsL, if_pos hmt]
        exact List.mem_append_right _ (List.mem_cons_self _ _)
      have hPS2 : PS = (psDone ++ [(i.result, fresh)]) ++
          pairsL (fresh + 1) rest := by
        rw [hPS, pairsL, if_pos hmt, List.append_cons]
      -- shape of the operand list
      obtain ⟨t2, hshape⟩ : ∃ t2, i.operands = op0 :: .const c :: t2 := by
        cases hl : i.operands with
        | nil => rw [hl] at hop0; cases hop0
        | cons a t =>
          cases t with
          | nil =>
            rw [hl] at hc1
            simp at hc1
          | cons b t2 =>
            rw [hl] at hop0 hc1
            simp only [List.get?_cons_zero, Option.some.injEq] at hop0
            simp only [List.get?_cons_succ, List.get?_cons_zero,
              Option.some.injEq] at hc1
            subst hop0
            subst hc1
            exact ⟨t2, rfl⟩
      -- the two step values
      have hvmul : opSem w other i.opcode
          (i.operands.map (evalOperand w e)) =
          (evalOperand w e op0) * (c.value % 2 ^ w) % 2 ^ w := by
        rw [hopc, hshape]
        rfl
      have hkey : opSem w other Opcode.shl
          [evalOperand w e2 (applyPairsO PS op0),
           evalOperand w e2 (Operand.const ⟨32, k⟩)] =
          opSem w other i.opcode (i.operands.map (evalOperand w e)) := by
        show (evalOperand w e2 (applyPairsO PS op0) <<< (k % 2 ^ w)) %
            2 ^ w = _
        rw [hvals op0 hmem_op0, hvmul]
        exact shl_eq_mul_pow w k c.value hcv hclt (evalOperand w e op0)
      have hrstep : ∀ v0,
          evalList w other e2
            ((transformL fresh (i :: rest)).map (applyPairsI PS)) v0 =
          evalList w other
            (update e2 fresh
              (opSem w other i.opcode (i.operands.map (evalOperand w e))))
            ((transformL (fresh + 1) rest).map (applyPairsI PS)) v0 := by
        intro v0
        simp only [transformL, hmi, List.map_cons, applyPairsI_mk,
          List.map_nil, applyPairsO_const, evalList, hkey]
      have hlstep : ∀ v0, evalList w other e (i :: rest) v0 =
          evalList w other
            (update e i.result
              (opSem w other i.opcode (i.operands.map (evalOperand w e))))
            rest v0 := by
        intro v0
        simp only [evalList]
      obtain ⟨ihA, ihB⟩ := ih (psDone ++ [(i.result, fresh)]) (fresh + 1)
        (i.result :: D)
        (update e i.result
          (opSem w other i.opcode (i.operands.map (evalOperand w e))))
        (update e2 fresh
          (opSem w other i.opcode (i.operands.map (evalOperand w e))))
        hPS2 (by omega)
        (fun j hj => hres_all j (List.mem_cons_of_mem _ hj))
        (fun j hj => hres_lt j (List.mem_cons_of_mem _ hj))
        hD_next hcons.2
        (fun j hj => hrefs j (List.mem_cons_of_mem _ hj))
        (fun j hj => hfit j (List.mem_cons_of_mem _ hj))
        hdbu_rest
        (by
          intro pr hpr
          rcases List.mem_append.mp hpr with h | h
          · have := hsnd_lt pr h
            omega
          · rcases List.mem_cons.mp h with heq | hm2
            · rw [heq]
              omega
            · cases hm2)
        (by
          intro pr hpr hc
          rcases List.mem_append.mp hpr with h | h
          · exact hfd_next pr h hc
          · rcases List.mem_cons.mp h with heq | hm2
            · rw [heq] at hc
              exact hcons.1 hc
            · cases hm2)
        (by
          intro v hv hfst hDm
          have hvfresh : v ≠ fresh := by omega
          rw [update_ne _ _ _ _ hvfresh]
          have hvr : v ≠ i.result := by
            intro hc
            refine hfst ?_
            rw [hc]
            exact List.mem_map_of_mem Prod.fst hpr_new
          rw [update_ne _ _ _ _ hvr]
          refine hA v hv hfst ?_
          rcases hDm with hDm | hDm
          · rcases List.mem_cons.mp hDm with heq | hm2
            · exact absurd heq hvr
            · exact Or.inl hm2
          · exact Or.inr hDm)
        (by
          intro pr hpr
          rcases List.mem_append.mp hpr with h | h
          · have h2 := hsnd_lt pr h
            rw [update_ne _ _ _ _ (by omega)]
            rw [update_ne _ _ _ _ (fun hc => hfst_done pr h
              (by rw [resultsOf_cons, hc]; exact List.mem_cons_self _ _))]
            exact hB pr h
          · rcases List.mem_cons.mp h with heq | hm2
            · rw [heq]
              rw [update_same, update_same]
            · cases hm2)
      constructor
      · intro v hv hfst hDm
        rw [hrstep v, hlstep v]
        refine ihA v hv hfst ?_
        rcases hDm with hDm | hDm | hDm
        · exact Or.inl (List.mem_cons_of_mem _ hDm)
        · rw [resultsOf_cons] at hDm
          rcases List.mem_cons.mp hDm with heq | hm2
          · exact Or.inl (heq ▸ List.mem_cons_self _ _)
          · exact Or.inr (Or.inl hm2)
        · exact Or.inr (Or.inr hDm)
      · intro pr hpr
        rw [hrstep pr.2, hlstep pr.1]
        refine ihB pr ?_
        rw [pairsL, if_pos hmt, List.append_cons] at hpr
        exact hpr

/-- C2: rewriting preserves evaluation: on a well-formed function, for the
same inputs, every surviving value evaluates the same before and after the
rewrite, and every new shift result carries exactly the value the removed
multiply produced, under fixed-width semantics where multiplication by
2 ^ k is left shift by k modulo 2 ^ w. -/
theorem reduce_semantic_preservation
    (F : Func) (fresh w : Nat) (other : Opcode → List Nat → Nat)
    (F2 : Func) (m : Bool) (env : Nat → Nat)
    (hred : reduce F fresh = .ok (F2, m))
    (hids : idsBelow F fresh = true)
    (huniq : uniqueResults F)
    (hdbu : defsBeforeUses F = true)
    (hfit : constsFit w F = true) :
    (∀ v, v < fresh → v ∉ removedResults F →
      evalFunc w other env F2 v = evalFunc w other env F v) ∧
    (∀ pr ∈ pairsB fresh F.blocks,
      evalFunc w other env F2 pr.2 = evalFunc w other env F pr.1) := by
  obtain ⟨hF2, hmm⟩ := reduce_ok_components F fresh F2 m hred
  subst hF2
  have hgood0 := pairsB_good F fresh hids
  have hnodupf := pairsB_fst_nodup F fresh huniq
  have hPSdef : pairsB fresh F.blocks = pairsL fresh (instrsOf F) := by
    rw [pairsB_eq_flatten]
    rfl
  obtain ⟨simA, simB⟩ := evalSim w other (resultsOf (instrsOf F))
    (pairsB fresh F.blocks) fresh hgood0 hnodupf (instrsOf F) [] fresh []
    env env
    (by rw [hPSdef, List.nil_append])
    le_rfl
    (fun i hi => List.mem_map_of_mem _ hi)
    (idsBelow_result_lt F fresh hids)
    (fun i hi hc => List.not_mem_nil _ hc)
    huniq
    (idsBelow_ref_lt F fresh hids)
    (constsFit_lt w F hfit)
    hdbu
    (fun pr hpr => absurd hpr (List.not_mem_nil _))
    (fun pr hpr => absurd hpr (List.not_mem_nil _))
    (fun v _ _ _ => rfl)
    (fun pr hpr => absurd hpr (List.not_mem_nil _))
  constructor
  · intro v hv hrm
    have hfst : v ∉ (pairsB fresh F.blocks).map Prod.fst := by
      rw [← removedResults_eq F fresh]
      exact hrm
    have hmain := simA v hv hfst (by
      by_cases hvres : v ∈ resultsOf (instrsOf F)
      · exact Or.inr (Or.inl hvres)
      · exact Or.inr (Or.inr hvres))
    rw [evalFunc, evalFunc, instrsOf_specFunc]
    exact hmain
  · intro pr hpr
    rw [evalFunc, evalFunc, instrsOf_specFunc]
    refine simB pr ?_
    rw [List.nil_append, ← hPSdef]
    exact hpr

theorem reduce_rewrites_matching_multiply_witness :
    ∃ f, lookup exMul4out 0 0 = some ⟨f, .shl,
        [applyPairsO (pairsB 10 exMul4.blocks) (.ref 0),
         .const ⟨32, exactLogBase2 4⟩]⟩ ∧
      (∀ j ∈ instrsOf exMul4out, j.result ≠ 1) ∧
      (∀ p2 q2 j o2, lookup exMul4 p2 q2 = some j →
        j.operands.get? o2 = some (.ref 1) →
        ∃ j2, lookup exMul4out p2 q2 = some j2 ∧
          j2.operands.get? o2 = some (.ref f)) :=
  reduce_rewrites_matching_multiply exMul4 10 exMul4out true 0 0
    ⟨1, .mul, [.ref 0, .const ⟨32, 4⟩]⟩ (.ref 0) ⟨32, 4⟩
    (reduce_eq exMul4 10 rfl) (by decide) (by decide) (by decide)
    rfl rfl rfl rfl (by decide)

theorem reduce_semantic_preservation_witness :
    (∀ v, v < 10 → v ∉ removedResults exMul4 →
      evalFunc 32 (fun _ vs => vs.sum) (fun v => v + 3) exMul4out v =
        evalFunc 32 (fun _ vs => vs.sum) (fun v => v + 3) exMul4 v) ∧
    (∀ pr ∈ pairsB 10 exMul4.blocks,
      evalFunc 32 (fun _ vs => vs.sum) (fun v => v + 3) exMul4out pr.2 =
        evalFunc 32 (fun _ vs => vs.sum) (fun v => v + 3) exMul4 pr.1) :=
  reduce_semantic_preservation exMul4 10 32 (fun _ vs => vs.sum)
    exMul4out true (fun v => v + 3)
    (reduce_eq exMul4 10 rfl) (by decide) (by decide) rfl (by decide)

theorem reduce_modified_iff_witness :
    true = true ↔ ∃ i ∈ instrsOf exMul4, matched i = true :=
  reduce_modified_iff exMul4 10 exMul4out true (reduce_eq exMul4 10 rfl)

theorem reduce_selectivity_counterexample :
    matched ⟨2, .other 0, [.ref 1, .const ⟨32, 1⟩]⟩ = false ∧
    lookup exMul4 0 1 = some ⟨2, .other 0, [.ref 1, .const ⟨32, 1⟩]⟩ ∧
    reduce exMul4 10 = .ok (exMul4out, true) ∧
    lookup exMul4out 0 1 ≠ some ⟨2, .other 0, [.ref 1, .const ⟨32, 1⟩]⟩ :=
  ⟨by decide, rfl, reduce_eq exMul4 10 rfl, by decide⟩

theorem reduce_nonmatching_kept_witness :
    lookup exMul4out 0 1 = some (applyPairsI (pairsB 10 exMul4.blocks)
      ⟨2, .other 0, [.ref 1, .const ⟨32, 1⟩]⟩) ∧
    (applyPairsI (pairsB 10 exMul4.blocks)
      ⟨2, .other 0, [.ref 1, .const ⟨32, 1⟩]⟩).result = 2 ∧
    (applyPairsI (pairsB 10 exMul4.blocks)
      ⟨2, .other 0, [.ref 1, .const ⟨32, 1⟩]⟩).opcode = .other 0 ∧
    (applyPairsI (pairsB 10 exMul4.blocks)
      ⟨2, .other 0, [.ref 1, .const ⟨32, 1⟩]⟩).operands.length = 2 ∧
    (∀ o2 o, ([Operand.ref 1, Operand.const ⟨32, 1⟩]).get? o2 = some o →
      ((∀ r ∈ removedResults exMul4, o ≠ .ref r) →
        (applyPairsI (pairsB 10 exMul4.blocks)
          ⟨2, .other 0, [.ref 1, .const ⟨32, 1⟩]⟩).operands.get? o2 =
          some o) ∧
      (∀ r, o = .ref r → r ∈ removedResults exMul4 →
        ∃ f, (r, f) ∈ pairsB 10 exMul4.blocks ∧
          (applyPairsI (pairsB 10 exMul4.blocks)
            ⟨2, .other 0, [.ref 1, .const ⟨32, 1⟩]⟩).operands.get? o2 =
            some (.ref f))) :=
  reduce_nonmatching_kept exMul4 10 exMul4out true 0 1
    ⟨2, .other 0, [.ref 1, .const ⟨32, 1⟩]⟩
    (reduce_eq exMul4 10 rfl) (by decide) (by decide) rfl (by decide)

theorem reduce_idempotent_witness :
    reduce exMul4 10 = .ok (exMul4out, true) ∧
    reduce exMul4out 20 = .ok (exMul4out, false) :=
  ⟨reduce_eq exMul4 10 rfl,
   reduce_idempotent exMul4 10 20 exMul4out true (reduce_eq exMul4 10 rfl)⟩

theorem reduce_no_dangling_witness :
    (∀ r ∈ removedResults exMul4, ∀ j ∈ instrsOf exMul4out,
      (Operand.ref r) ∉ j.operands) ∧
    (∀ j ∈ instrsOf exMul4out, ∀ v, (Operand.ref v) ∈ j.operands →
      ((∃ j0 ∈ instrsOf exMul4, (Operand.ref v) ∈ j0.operands) ∧
        v ∉ removedResults exMul4) ∨
      ∃ j2 ∈ instrsOf exMul4out, j2.result = v) :=
  reduce_no_dangling exMul4 10 exMul4out true (reduce_eq exMul4 10 rfl)
    (by decide) (by decide)

theorem reduce_malformed_iff_witness :
    (reduce exMalformed 7 = .error .malformedOperand ↔
      ∃ i ∈ instrsOf exMalformed,
        i.opcode = .mul ∧ i.operands.length < 2) ∧
    (∀ e, reduce exMalformed 7 = .error e → e = .malformedOperand) :=
  reduce_malformed_iff exMalformed 7

theorem reduce_mul_one_rewritten_witness :
    true = true ∧ ∃ f op0,
      ([Operand.ref 0, Operand.const ⟨8, 1⟩]).get? 0 = some op0 ∧
      lookup exMulOneOut 0 0 = some ⟨f, .shl,
        [applyPairsO (pairsB 5 exMulOne.blocks) op0, .const ⟨32, 0⟩]⟩ :=
  reduce_mul_one_rewritten exMulOne 5 exMulOneOut true 0 0
    ⟨1, .mul, [.ref 0, .const ⟨8, 1⟩]⟩ 8
    (reduce_eq exMulOne 5 rfl) rfl rfl rfl (by decide)

theorem reduce_frame_counterexample :
    matched ⟨3, .other 9, [.ref 1]⟩ = false ∧
    lookup exTwoBlocks 1 0 = some ⟨3, .other 9, [.ref 1]⟩ ∧
    reduce exTwoBlocks 4 = .ok (exTwoBlocksOut, true) ∧
    lookup exTwoBlocksOut 1 0 ≠ some ⟨3, .other 9, [.ref 1]⟩ :=
  ⟨by decide, rfl, reduce_eq exTwoBlocks 4 rfl, by decide⟩

theorem reduce_frame_order_count_witness :
    exTwoBlocksOut.blocks.length = exTwoBlocks.blocks.length ∧
    (∀ p b, exTwoBlocks.blocks.get? p = some b →
      ∃ b2, exTwoBlocksOut.blocks.get? p = some b2 ∧
        b2.length = b.length) ∧
    (instrsOf exTwoBlocksOut).length = (instrsOf exTwoBlocks).length ∧
    (∀ p q i, lookup exTwoBlocks p q = some i → matched i = false →
      ∃ i2, lookup exTwoBlocksOut p q = some i2 ∧ i2.result = i.result ∧
        i2.opcode = i.opcode) ∧
    (∀ p q i, lookup exTwoBlocks p q = some i → matched i = true →
      ∃ f op0 k, matchInfo i = some (op0, k) ∧
        lookup exTwoBlocksOut p q = some ⟨f, .shl,
          [applyPairsO (pairsB 4 exTwoBlocks.blocks) op0,
           .const ⟨32, k⟩]⟩) :=
  reduce_frame_order_count exTwoBlocks 4 exTwoBlocksOut true
    (reduce_eq exTwoBlocks 4 rfl)

theorem reduce_shift_amount_width32_witness :
    ∃ f op0, ([Operand.ref 0, Operand.const ⟨64, 8⟩]).get? 0 = some op0 ∧
      lookup exMul64Out 0 0 = some ⟨f, .shl,
        [applyPairsO (pairsB 9 exMul64.blocks) op0,
         .const ⟨32, exactLogBase2 8⟩]⟩ :=
  reduce_shift_amount_width32 exMul64 9 exMul64Out true 0 0
    ⟨1, .mul, [.ref 0, .const ⟨64, 8⟩]⟩ ⟨64, 8⟩
    (reduce_eq exMul64 9 rfl) rfl rfl rfl (by decide) (by decide)

end StrengthReduce
